import Mathlib

/-!
Verification of the word-index core of basecode-lsp.

The Rust sources are shallowly embedded:
* `src/trie.rs` — `TrieNode`, `Trie` with `insert`, `remove` (via
  `remove_helper`), `suggest_completions` (via `suggest_completions_helper`
  and `collect_words`).  The `HashMap<char, TrieNode>` of children is
  modelled as the association structure `Children`; iteration order of a
  hash map is arbitrary, and the spec declares traversal order
  unspecified, so the list order is a faithful model.  Rust `String`s are
  modelled by their character lists (`List Char`), `i32` counts by `Int`.
* `src/basecode_lsp/util.rs` — `valid_token_char`, `is_token`,
  `process_token`, `get_possible_current_word`.
* `src/basecode_lsp/backend.rs` — the document store and the
  `did_open` / `did_change` / `did_close` handlers, with the two Rust
  hash maps modelled as association lists.
-/

/- ## The trie (src/trie.rs) -/

mutual
/-- `TrieNode` of src/trie.rs: a `word_count` (Rust `i32`, modelled as `Int`)
and a map from `char` to child node (Rust `HashMap`, modelled as the
association structure `Children`). -/
inductive TrieNode : Type where
  | mk (word_count : Int) (children : Children)
deriving Repr, DecidableEq

/-- The children map of a `TrieNode`: an association structure from
characters to child nodes, modelling `HashMap<char, TrieNode>`. -/
inductive Children : Type where
  | nil
  | cons (c : Char) (t : TrieNode) (rest : Children)
deriving Repr, DecidableEq
end

/-- The `word_count` field. -/
def TrieNode.word_count : TrieNode → Int
  | .mk cnt _ => cnt

/-- The `children` field. -/
def TrieNode.children : TrieNode → Children
  | .mk _ ch => ch

/-- `HashMap::get`: the node stored under key `c`, if any. -/
def Children.find? : Children → Char → Option TrieNode
  | .nil, _ => none
  | .cons c0 t rest, c => if c0 = c then some t else rest.find? c

/-- `HashMap::insert` / `entry(c).or_default()` followed by storing `t`:
replace the entry at key `c`, or add it when absent. -/
def Children.set : Children → Char → TrieNode → Children
  | .nil, c, t => .cons c t .nil
  | .cons c0 t0 rest, c, t =>
      if c0 = c then .cons c0 t rest else .cons c0 t0 (rest.set c t)

/-- `HashMap::remove`: drop the entry at key `c`, if present. -/
def Children.erase : Children → Char → Children
  | .nil, _ => .nil
  | .cons c0 t0 rest, c =>
      if c0 = c then rest else .cons c0 t0 (rest.erase c)

/-- `HashMap::is_empty`. -/
def Children.isEmpty : Children → Bool
  | .nil => true
  | .cons _ _ _ => false

/-- The list of keys of the children map. -/
def Children.keys : Children → List Char
  | .nil => []
  | .cons c _ rest => c :: rest.keys

/-- `TrieNode::default()`: zero count, no children. -/
def TrieNode.default : TrieNode := .mk 0 .nil

/-- Induction over the spine of a children map (the generated mutual
recursor has several motives, which the `induction` tactic refuses; spine
recursion is all the association-map lemmas need). -/
def Children.spineInd {motive : Children → Prop} (hnil : motive .nil)
    (hcons : ∀ c t rest, motive rest → motive (.cons c t rest)) :
    (ch : Children) → motive ch
  | .nil => hnil
  | .cons c t rest => hcons c t rest (Children.spineInd hnil hcons rest)

/-- The `Trie` struct of src/trie.rs: a root node. -/
structure Trie : Type where
  root : TrieNode
deriving Repr, DecidableEq

/-- `Trie::new()`. -/
def Trie.new : Trie := ⟨TrieNode.default⟩

/-- The walk of `Trie::insert`, recursing over the characters of the word:
walk/create (`entry(char).or_default()`) the path, and increment the
terminal node's count. -/
def TrieNode.insertW : TrieNode → List Char → TrieNode
  | .mk cnt ch, [] => .mk (cnt + 1) ch
  | .mk cnt ch, c :: cs =>
      let child := (ch.find? c).getD TrieNode.default
      .mk cnt (ch.set c (child.insertW cs))

/-- `Trie::insert`. -/
def Trie.insert (t : Trie) (word : List Char) : Trie :=
  ⟨t.root.insertW word⟩

/-- `Trie::remove_helper`: returns the updated node together with the
`should_delete_child` flag (`children.is_empty() && word_count == 0`). -/
def TrieNode.remove_helper : TrieNode → List Char → TrieNode × Bool
  | .mk cnt ch, [] =>
      let cnt' := max (cnt - 1) 0
      (.mk cnt' ch, ch.isEmpty && decide (cnt' = 0))
  | .mk cnt ch, c :: cs =>
      match ch.find? c with
      | none => (.mk cnt ch, false)
      | some child =>
          let r := child.remove_helper cs
          if r.2 then
            let ch' := ch.erase c
            (.mk cnt ch', ch'.isEmpty && decide (cnt = 0))
          else
            (.mk cnt (ch.set c r.1), false)

/-- `Trie::remove`: run the helper on the root and discard the flag. -/
def Trie.remove (t : Trie) (word : List Char) : Trie :=
  ⟨(t.root.remove_helper word).1⟩

mutual
/-- `Trie::collect_words`: emit the current path when the node's count is
positive, then recurse into every child, extending the path by the child's
key. -/
def TrieNode.collect_words : TrieNode → List Char → List (List Char)
  | .mk cnt ch, word =>
      (if cnt > 0 then [word] else []) ++ Children.collect_each ch word

/-- Iteration of `collect_words` over the children map. -/
def Children.collect_each : Children → List Char → List (List Char)
  | .nil, _ => []
  | .cons c child rest, word =>
      child.collect_words (word ++ [c]) ++ rest.collect_each word
end

/-- `Trie::suggest_completions_helper`: follow the remaining characters of
the query (the original full query is carried along, as the Rust code
carries `prefix` plus an index); absent child means no completions, and at
the end of the query `collect_words` runs from the reached node. -/
def TrieNode.suggest_helper : TrieNode → List Char → List Char → List (List Char)
  | node, full, [] => node.collect_words full
  | node, full, c :: cs =>
      match node.children.find? c with
      | none => []
      | some child => child.suggest_helper full cs

/-- `Trie::suggest_completions`. -/
def Trie.suggest_completions (t : Trie) (p : List Char) : List (List Char) :=
  t.root.suggest_helper p p

/- ## Derived observation: the count stored for a word -/

/-- The count recorded at the end of the path `w`, or `0` when the path is
absent.  This is the specification-level "multiplicity of `w`". -/
def TrieNode.countOf : TrieNode → List Char → Int
  | .mk cnt _, [] => cnt
  | .mk _ ch, c :: cs =>
      match ch.find? c with
      | none => 0
      | some child => child.countOf cs

/-- The node reached by following `w`, if any. -/
def TrieNode.nodeAt? : TrieNode → List Char → Option TrieNode
  | t, [] => some t
  | .mk _ ch, c :: cs =>
      match ch.find? c with
      | none => none
      | some child => child.nodeAt? cs

/- ## Invariants -/

/-- A node that a parent may retain: at least one child or positive count. -/
def TrieNode.live (t : TrieNode) : Prop :=
  t.children ≠ .nil ∨ 0 < t.word_count

mutual
/-- Well-formedness of a node: non-negative count, no duplicate child keys,
and all children well-formed and live. -/
def TrieNode.Wf : TrieNode → Prop
  | .mk cnt ch => 0 ≤ cnt ∧ ch.keys.Nodup ∧ ch.WfAll

/-- Well-formedness of a children map: every entry holds a well-formed,
live node. -/
def Children.WfAll : Children → Prop
  | .nil => True
  | .cons _ t rest => t.Wf ∧ t.live ∧ rest.WfAll
end

mutual
/-- The pruning invariant of the spec, stated for a (root) node: every
count in the tree is `≥ 0`, and every node other than the root has at
least one child or a strictly positive count. -/
def TrieNode.Pruned : TrieNode → Prop
  | .mk cnt ch => 0 ≤ cnt ∧ ch.PrunedAll

/-- The pruning invariant for all nodes of a children map. -/
def Children.PrunedAll : Children → Prop
  | .nil => True
  | .cons _ t rest => t.live ∧ t.Pruned ∧ rest.PrunedAll
end

/- ## Operation sequences -/

/-- A trie mutation: one `insert` or one `remove` call. -/
inductive TrieOp : Type where
  | ins (w : List Char)
  | rem (w : List Char)
deriving Repr, DecidableEq

/-- Apply one operation. -/
def Trie.applyOp (t : Trie) : TrieOp → Trie
  | .ins w => t.insert w
  | .rem w => t.remove w

/-- Apply a sequence of operations from left to right. -/
def Trie.applyOps (t : Trie) (ops : List TrieOp) : Trie :=
  ops.foldl Trie.applyOp t

/- ## Token extraction (src/basecode_lsp/util.rs)

Character classification: `char::is_alphanumeric` / `is_digit(10)` are
modelled by `Char.isAlphanum` / `Char.isDigit`; the claims and all
concrete inputs are within the ASCII range, where the Rust and Lean
classifications agree. -/

/-- `valid_token_char` of util.rs. -/
def valid_token_char (ch : Char) : Bool :=
  ch.isAlphanum || ch == '_'

/-- `is_token` of util.rs: long enough, not all digits, and (when
non-empty) not starting with a digit. -/
def is_token (current : List Char) (min_len : Nat) : Bool :=
  if current.length < min_len then false
  else if current.all (fun c => c.isDigit) then false
  else
    match current.head? with
    | some first_char => !first_char.isDigit
    | none => true

/-- One step of the `process_token` loop: on an invalid character flush the
`current` buffer (keeping it when `is_token` accepts it), otherwise extend
the buffer. -/
def process_step (min_len : Nat) (acc : List (List Char) × List Char) (ch : Char) :
    List (List Char) × List Char :=
  if !valid_token_char ch then
    (if is_token acc.2 min_len then acc.1 ++ [acc.2] else acc.1, [])
  else
    (acc.1, acc.2 ++ [ch])

/-- `process_token` of util.rs: fold the step over the characters, then
flush the final buffer. -/
def process_token (token : List Char) (min_len : Nat) : List (List Char) :=
  let r := token.foldl (process_step min_len) ([], [])
  if is_token r.2 min_len then r.1 ++ [r.2] else r.1

/- ## CompletionQuery (src/basecode_lsp/util.rs) -/

/-- The body of the backward scan of `get_possible_current_word`
(`while i >= 0 && valid_token_char(line[i]) { i -= 1 }`), written with an
explicit iteration budget so that it is structurally recursive.  Indices
are `i32` in Rust, modelled as `Int`; in-range accesses are total via
`getD` (all actual accesses are in range, so the default is immaterial). -/
def scan_back_fuel (line : List Char) : Nat → Int → Int
  | 0, i => i
  | fuel + 1, i =>
      if 0 ≤ i ∧ valid_token_char (line.getD i.toNat ' ') then
        scan_back_fuel line fuel (i - 1)
      else i

/-- The backward scan itself: the loop runs at most `i + 1` times (each
iteration decrements `i`, and the loop stops below `0`), so a budget of
`(i + 1).toNat` computes the loop exactly. -/
def scan_back (line : List Char) (i : Int) : Int :=
  scan_back_fuel line (i + 1).toNat i

/-- The body of the forward scan of `get_possible_current_word`
(`while (i as usize) < line.len() && valid_token_char(line[i])`, pushing
the character onto `current` and the accumulated `current` onto the
result), with an explicit iteration budget.  A negative `i` cast to
`usize` exceeds the line length, so the loop never runs then; the `0 ≤ i`
guard models that. -/
def scan_forward_fuel (line : List Char) :
    Nat → Int → List Char → List (List Char) → List (List Char)
  | 0, _, _, possible => possible
  | fuel + 1, i, current, possible =>
      if 0 ≤ i ∧ i < line.length ∧ valid_token_char (line.getD i.toNat ' ') then
        let c := line.getD i.toNat ' '
        scan_forward_fuel line fuel (i + 1) (current ++ [c]) (possible ++ [current ++ [c]])
      else possible

/-- The forward scan itself: the loop runs at most `line.length - i`
times (each iteration increments `i`, and the loop stops at the length),
so that budget computes the loop exactly. -/
def scan_forward (line : List Char) (i : Int) (current : List Char)
    (possible : List (List Char)) : List (List Char) :=
  scan_forward_fuel line ((line.length : Int) - i).toNat i current possible

/-- `get_possible_current_word` of util.rs. -/
def get_possible_current_word (current_line : List Char) (character : Int) :
    List (List Char) :=
  let i0 : Int := min (character - 1) ((current_line.length : Int) - 1)
  scan_forward current_line (scan_back current_line i0 + 1) [] []

/- ## DocumentSync (src/basecode_lsp/backend.rs) -/

/-- `str::split_whitespace`: the maximal runs of non-whitespace
characters.  (Lean's `Char.isWhitespace` matches Rust's on the ASCII
whitespace used by the claims.) -/
def split_whitespace (s : List Char) : List (List Char) :=
  (s.splitOnP (fun c => c.isWhitespace)).filter (fun r => !r.isEmpty)

/-- The words `add_words` / `remove_words` extract from a document:
whitespace-split, then `process_token` each piece. -/
def doc_words (content : List Char) (min_len : Nat) : List (List Char) :=
  (split_whitespace content).flatMap (fun tok => process_token tok min_len)

/-- `Backend::add_words`: insert every extracted word. -/
def add_words (t : Trie) (content : List Char) (min_len : Nat) : Trie :=
  (doc_words content min_len).foldl Trie.insert t

/-- `Backend::remove_words`: remove every extracted word. -/
def remove_words (t : Trie) (content : List Char) (min_len : Nat) : Trie :=
  (doc_words content min_len).foldl Trie.remove t

/-- `HashMap::get` on the document store (uri-keyed association list). -/
def docFind? : List (String × List Char) → String → Option (List Char)
  | [], _ => none
  | (u, c) :: rest, uri => if u = uri then some c else docFind? rest uri

/-- `HashMap::insert` on the document store. -/
def docSet : List (String × List Char) → String → List Char → List (String × List Char)
  | [], uri, text => [(uri, text)]
  | (u, c) :: rest, uri, text =>
      if u = uri then (u, text) :: rest else (u, c) :: docSet rest uri text

/-- `HashMap::remove` on the document store. -/
def docErase : List (String × List Char) → String → List (String × List Char)
  | [], _ => []
  | (u, c) :: rest, uri =>
      if u = uri then rest else (u, c) :: docErase rest uri

/-- The state `did_open` / `did_change` / `did_close` act on: the
`documents` map and the shared `Trie`.  (The tmux source and snippet maps
are untouched by these invariants and are not modelled.) -/
structure BackendState : Type where
  documents : List (String × List Char)
  trie : Trie
deriving Repr, DecidableEq

/-- The empty backend state (`Backend::new`). -/
def BackendState.empty : BackendState :=
  ⟨[], Trie.new⟩

/-- `Backend::did_open`: store the text, insert its words. -/
def did_open (s : BackendState) (uri : String) (text : List Char)
    (min_len : Nat) : BackendState :=
  ⟨docSet s.documents uri text, add_words s.trie text min_len⟩

/-- `Backend::did_close`: when the uri is stored, remove the stored
content's words; in either case drop the record. -/
def did_close (s : BackendState) (uri : String) (min_len : Nat) : BackendState :=
  match docFind? s.documents uri with
  | some content =>
      ⟨docErase s.documents uri, remove_words s.trie content min_len⟩
  | none => ⟨docErase s.documents uri, s.trie⟩

/-- `Backend::did_change`: when the uri is stored, remove the old
content's words and overwrite the record with the **last** fragment (when
one exists); then — stored or not — insert the words of **every**
fragment. -/
def did_change (s : BackendState) (uri : String) (changes : List (List Char))
    (min_len : Nat) : BackendState :=
  let s1 : BackendState :=
    match docFind? s.documents uri with
    | some content =>
        let t1 := remove_words s.trie content min_len
        match changes.getLast? with
        | some last => ⟨docSet s.documents uri last, t1⟩
        | none => ⟨s.documents, t1⟩
    | none => s
  ⟨s1.documents, changes.foldl (fun tr c => add_words tr c min_len) s1.trie⟩

/- ## Specification-side definitions (for refinement claims) -/

/-- The count stored for key `c`, path `s`, inside a children map;
`countOf` at a node with children `ch` satisfies
`(TrieNode.mk cnt ch).countOf (c :: s) = ch.countIn c s` definitionally. -/
def Children.countIn (ch : Children) (c : Char) (s : List Char) : Int :=
  match ch.find? c with
  | none => 0
  | some u => u.countOf s

/-- Split a character list at every separator (characters satisfying `p`),
keeping empty pieces — the splitting skeleton of the spec's
"split text on runs of non-valid characters". -/
def splitRuns (p : Char → Bool) : List Char → List (List Char)
  | [] => [[]]
  | c :: cs =>
      match splitRuns p cs with
      | [] => [[]]
      | r :: rs => if p c then [] :: r :: rs else (c :: r) :: rs

/-- The spec's "maximal runs of valid characters": split on non-valid
characters and drop the empty pieces. -/
def maximalRuns (text : List Char) : List (List Char) :=
  (splitRuns (fun c => !valid_token_char c) text).filter (fun r => !r.isEmpty)

/-- The spec's acceptance policy for a run: length at least `min_len`, not
composed entirely of digits, first character not a digit. -/
def spec_accepts (r : List Char) (min_len : Nat) : Bool :=
  decide (min_len ≤ r.length) && !(r.all (fun c => c.isDigit)) &&
    (match r.head? with
     | some c => !c.isDigit
     | none => true)

/-- The spec's tokenizer: the maximal valid runs that pass the policy. -/
def spec_tokens (text : List Char) (min_len : Nat) : List (List Char) :=
  (maximalRuns text).filter (fun r => spec_accepts r min_len)

/-- The non-empty ascending prefixes of a run: lengths 1, 2, …, up to the
run's length. -/
def headPrefixes : List Char → List (List Char)
  | [] => []
  | c :: cs => [c] :: (headPrefixes cs).map (fun x => c :: x)

/-- The start index of the current token, as the code computes it: scan
backward from `min(character - 1, length - 1)` over valid characters, then
step forward once. -/
def token_start (line : List Char) (character : Int) : Int :=
  scan_back line (min (character - 1) ((line.length : Int) - 1)) + 1

/-- The claim's reading of `visibleSuffixes`: the forward run from the
token start is cut off at the cursor column, and only its non-empty
prefixes are returned. -/
def claim_visible (line : List Char) (character : Int) : List (List Char) :=
  let start := token_start line character
  let run := (line.drop start.toNat).takeWhile valid_token_char
  headPrefixes (run.take (character - start).toNat)

/-- What the code actually returns: the non-empty prefixes of the whole
maximal valid run beginning at the token start (running to the end of the
token, regardless of the cursor column). -/
def code_visible (line : List Char) (character : Int) : List (List Char) :=
  let start := token_start line character
  headPrefixes ((line.drop start.toNat).takeWhile valid_token_char)

/- ## Backend invariant -/

/-- The total number of occurrences of the word `w` contributed by the
stored documents: the sum over every stored document of the multiplicity
of `w` among the tokens extracted from its stored content. -/
def storedCount (docs : List (String × List Char)) (min_len : Nat)
    (w : List Char) : Int :=
  (docs.map (fun p => ((doc_words p.2 min_len).count w : Int))).sum

/-- "What's indexed == what's stored": for every word, the count in the
trie equals the total count extracted from the stored documents. -/
def IndexMatchesStore (s : BackendState) (min_len : Nat) : Prop :=
  ∀ w, s.trie.root.countOf w = storedCount s.documents min_len w

/-- The full backend invariant: a well-formed trie, no duplicate uris, and
the index/store correspondence. -/
def BackendInv (s : BackendState) (min_len : Nat) : Prop :=
  s.trie.root.Wf ∧ (s.documents.map Prod.fst).Nodup ∧ IndexMatchesStore s min_len

/- sanity checks -/

theorem trie_sanity_suggest :
    (((Trie.new.insert "apple".toList).insert "application".toList).insert
        "banana".toList).suggest_completions "ap".toList =
      ["apple".toList, "application".toList] := by decide

theorem trie_sanity_remove :
    ((Trie.new.insert "apple".toList).remove "apple".toList) = Trie.new := by decide


/- ## Children map lemmas -/

theorem Children.find?_set_self (ch : Children) (c : Char) (t : TrieNode) :
    (ch.set c t).find? c = some t := by
  induction ch using Children.spineInd with
  | hnil => simp [Children.set, Children.find?]
  | hcons c0 t0 rest ih =>
    by_cases h : c0 = c
    · simp [Children.set, Children.find?, h]
    · simp [Children.set, Children.find?, h, ih]

theorem Children.find?_set_ne {ch : Children} {c d : Char} {t : TrieNode}
    (h : c ≠ d) : (ch.set c t).find? d = ch.find? d := by
  induction ch using Children.spineInd with
  | hnil => simp [Children.set, Children.find?, h]
  | hcons c0 t0 rest ih =>
    by_cases h0 : c0 = c
    · subst h0
      simp [Children.set, Children.find?, h]
    · simp [Children.set, Children.find?, h0, ih]

theorem Children.find?_isSome_mem_keys {ch : Children} {c : Char} {t : TrieNode}
    (h : ch.find? c = some t) : c ∈ ch.keys := by
  induction ch using Children.spineInd with
  | hnil => simp [Children.find?] at h
  | hcons c0 t0 rest ih =>
    by_cases h0 : c0 = c
    · subst h0; simp [Children.keys]
    · simp [Children.find?, h0] at h
      simp [Children.keys, ih h]

theorem Children.find?_eq_none_of_notMem {ch : Children} {c : Char}
    (h : c ∉ ch.keys) : ch.find? c = none := by
  induction ch using Children.spineInd with
  | hnil => simp [Children.find?]
  | hcons c0 t0 rest ih =>
    simp [Children.keys] at h
    have h0 : ¬ c0 = c := fun he => h.1 he.symm
    simp [Children.find?, h0, ih h.2]

theorem Children.find?_erase_self {ch : Children} (c : Char)
    (h : ch.keys.Nodup) : (ch.erase c).find? c = none := by
  induction ch using Children.spineInd with
  | hnil => simp [Children.erase, Children.find?]
  | hcons c0 t0 rest ih =>
    simp [Children.keys, List.nodup_cons] at h
    by_cases h0 : c0 = c
    · subst h0
      simpa [Children.erase] using Children.find?_eq_none_of_notMem h.1
    · simp [Children.erase, Children.find?, h0, ih h.2]

theorem Children.find?_erase_ne {ch : Children} {c d : Char} (h : c ≠ d) :
    (ch.erase c).find? d = ch.find? d := by
  induction ch using Children.spineInd with
  | hnil => simp [Children.erase]
  | hcons c0 t0 rest ih =>
    by_cases h0 : c0 = c
    · subst h0
      simp [Children.erase, Children.find?, h]
    · simp [Children.erase, Children.find?, h0, ih]

theorem Children.keys_set_mem {ch : Children} {c : Char} (t : TrieNode)
    (h : c ∈ ch.keys) : (ch.set c t).keys = ch.keys := by
  induction ch using Children.spineInd with
  | hnil => simp [Children.keys] at h
  | hcons c0 t0 rest ih =>
    by_cases h0 : c0 = c
    · simp [Children.set, h0, Children.keys]
    · simp [Children.keys, h0] at h
      rcases h with h | h
      · exact absurd h.symm h0
      · simp [Children.set, h0, Children.keys, ih h]

theorem Children.keys_set_notMem {ch : Children} {c : Char} (t : TrieNode)
    (h : c ∉ ch.keys) : (ch.set c t).keys = ch.keys ++ [c] := by
  induction ch using Children.spineInd with
  | hnil => simp [Children.set, Children.keys]
  | hcons c0 t0 rest ih =>
    simp [Children.keys] at h
    have h0 : ¬ c0 = c := fun he => h.1 he.symm
    simp [Children.set, h0, Children.keys, ih h.2]

theorem Children.keys_set_nodup {ch : Children} {c : Char} (t : TrieNode)
    (h : ch.keys.Nodup) : (ch.set c t).keys.Nodup := by
  by_cases hm : c ∈ ch.keys
  · rw [Children.keys_set_mem t hm]; exact h
  · rw [Children.keys_set_notMem t hm]
    refine List.Nodup.append h (List.nodup_singleton c) ?_
    intro x hx hx2
    simp at hx2
    subst hx2
    exact hm hx

theorem Children.keys_erase_sublist (ch : Children) (c : Char) :
    (ch.erase c).keys.Sublist ch.keys := by
  induction ch using Children.spineInd with
  | hnil => simp [Children.erase]
  | hcons c0 t0 rest ih =>
    by_cases h0 : c0 = c
    · simp only [Children.erase, h0, if_pos rfl, Children.keys]
      exact List.sublist_cons_self _ _
    · simp only [Children.erase, h0, if_neg h0, Children.keys]
      exact List.Sublist.cons₂ _ ih

theorem Children.keys_erase_nodup {ch : Children} (c : Char)
    (h : ch.keys.Nodup) : (ch.erase c).keys.Nodup :=
  (Children.keys_erase_sublist ch c).nodup h

theorem Children.isEmpty_iff_nil {ch : Children} : ch.isEmpty = true ↔ ch = .nil := by
  cases ch <;> simp [Children.isEmpty]

theorem Children.set_ne_nil (ch : Children) (c : Char) (t : TrieNode) :
    ch.set c t ≠ .nil := by
  cases ch with
  | nil => simp [Children.set]
  | cons c0 t0 rest =>
    by_cases h0 : c0 = c <;> simp [Children.set, h0]

theorem Children.set_find?_self_eq {ch : Children} {c : Char} {u : TrieNode}
    (h : ch.find? c = some u) : ch.set c u = ch := by
  induction ch using Children.spineInd with
  | hnil => simp [Children.find?] at h
  | hcons c0 t0 rest ih =>
    by_cases h0 : c0 = c
    · subst h0
      simp [Children.find?] at h
      simp [Children.set, h]
    · simp [Children.find?, h0] at h
      simp [Children.set, h0, ih h]

/- ## countOf lemmas -/

theorem TrieNode.countOf_default (v : List Char) :
    TrieNode.default.countOf v = 0 := by
  cases v <;> simp [TrieNode.default, TrieNode.countOf, Children.find?]

theorem TrieNode.countOf_zero_node {ch : Children} {cnt : Int}
    (hch : ch = .nil) (hc : cnt = 0) (v : List Char) :
    (TrieNode.mk cnt ch).countOf v = 0 := by
  subst hch hc
  cases v <;> simp [TrieNode.countOf, Children.find?]

theorem TrieNode.countOf_insertW (w : List Char) :
    ∀ (t : TrieNode) (v : List Char),
      (t.insertW w).countOf v = t.countOf v + (if v = w then 1 else 0) := by
  induction w with
  | nil =>
    intro t v
    cases t with
    | mk cnt ch =>
      cases v with
      | nil => simp [TrieNode.insertW, TrieNode.countOf]
      | cons d ds => simp [TrieNode.insertW, TrieNode.countOf]
  | cons c cs ih =>
    intro t v
    cases t with
    | mk cnt ch =>
      cases v with
      | nil => simp [TrieNode.insertW, TrieNode.countOf]
      | cons d ds =>
        by_cases hdc : d = c
        · subst hdc
          simp only [TrieNode.insertW, TrieNode.countOf, Children.find?_set_self]
          cases hf : ch.find? d with
          | none =>
            have hins := ih TrieNode.default ds
            simp only [hf, Option.getD_none, hins, TrieNode.countOf_default]
            by_cases hds : ds = cs <;> simp [hds]
          | some child =>
            have hins := ih child ds
            simp only [hf, Option.getD_some, hins]
            by_cases hds : ds = cs <;> simp [hds]
        · have hcd : c ≠ d := fun he => hdc he.symm
          simp only [TrieNode.insertW, TrieNode.countOf, Children.find?_set_ne hcd]
          have hne2 : ¬ (d :: ds = c :: cs) := by simp [hdc]
          simp [hne2]

theorem Children.wf_of_find? {ch : Children} {c : Char} {u : TrieNode}
    (hall : ch.WfAll) (hf : ch.find? c = some u) : u.Wf ∧ u.live := by
  induction ch using Children.spineInd with
  | hnil => simp [Children.find?] at hf
  | hcons c0 t0 rest ih =>
    obtain ⟨h1, h2, h3⟩ : t0.Wf ∧ t0.live ∧ rest.WfAll := hall
    by_cases h0 : c0 = c
    · simp [Children.find?, h0] at hf
      exact hf ▸ ⟨h1, h2⟩
    · simp only [Children.find?, if_neg h0] at hf
      exact ih h3 hf

/-- Branch equation: `remove_helper` at the end of the word. -/
theorem TrieNode.remove_helper_nil (cnt : Int) (ch : Children) :
    (TrieNode.mk cnt ch).remove_helper [] =
      (.mk (max (cnt - 1) 0) ch, ch.isEmpty && decide (max (cnt - 1) 0 = 0)) := by
  simp [TrieNode.remove_helper]

/-- Branch equation: `remove_helper` when the child is absent. -/
theorem TrieNode.remove_helper_cons_none {ch : Children} {c : Char}
    (cnt : Int) (cs : List Char) (hf : ch.find? c = none) :
    (TrieNode.mk cnt ch).remove_helper (c :: cs) = (.mk cnt ch, false) := by
  simp [TrieNode.remove_helper, hf]

/-- Branch equation: `remove_helper` when the child reports deletion. -/
theorem TrieNode.remove_helper_cons_del {ch : Children} {c : Char} {child : TrieNode}
    (cnt : Int) (cs : List Char) (hf : ch.find? c = some child)
    (hdel : (child.remove_helper cs).2 = true) :
    (TrieNode.mk cnt ch).remove_helper (c :: cs) =
      (.mk cnt (ch.erase c), (ch.erase c).isEmpty && decide (cnt = 0)) := by
  simp [TrieNode.remove_helper, hf, hdel]

/-- Branch equation: `remove_helper` when the child is kept. -/
theorem TrieNode.remove_helper_cons_keep {ch : Children} {c : Char} {child : TrieNode}
    (cnt : Int) (cs : List Char) (hf : ch.find? c = some child)
    (hdel : (child.remove_helper cs).2 = false) :
    (TrieNode.mk cnt ch).remove_helper (c :: cs) =
      (.mk cnt (ch.set c (child.remove_helper cs).1), false) := by
  simp [TrieNode.remove_helper, hf, hdel]

/-- When `remove_helper` reports that the node should be deleted, the
returned node has no children and count `0`. -/
theorem TrieNode.remove_helper_flag_shape (w : List Char) :
    ∀ (t : TrieNode), (t.remove_helper w).2 = true →
      (t.remove_helper w).1.children = .nil ∧ (t.remove_helper w).1.word_count = 0 := by
  intro t hflag
  cases w with
  | nil =>
    cases t with
    | mk cnt ch =>
      rw [TrieNode.remove_helper_nil] at hflag ⊢
      simp only [Bool.and_eq_true, decide_eq_true_eq,
        Children.isEmpty_iff_nil] at hflag
      simp [TrieNode.children, TrieNode.word_count, hflag.1, hflag.2]
  | cons c cs =>
    cases t with
    | mk cnt ch =>
      cases hf : ch.find? c with
      | none =>
        rw [TrieNode.remove_helper_cons_none cnt cs hf] at hflag
        simp at hflag
      | some child =>
        cases hdel : (child.remove_helper cs).2 with
        | true =>
          rw [TrieNode.remove_helper_cons_del cnt cs hf hdel] at hflag ⊢
          simp only [Bool.and_eq_true, decide_eq_true_eq,
            Children.isEmpty_iff_nil] at hflag
          simp [TrieNode.children, TrieNode.word_count, hflag.1, hflag.2]
        | false =>
          rw [TrieNode.remove_helper_cons_keep cnt cs hf hdel] at hflag
          simp at hflag

theorem TrieNode.countOf_remove_helper (w : List Char) :
    ∀ (t : TrieNode), t.Wf → ∀ (v : List Char),
      (t.remove_helper w).1.countOf v =
        if v = w then max (t.countOf w - 1) 0 else t.countOf v := by
  induction w with
  | nil =>
    intro t hwf v
    cases t with
    | mk cnt ch =>
      rw [TrieNode.remove_helper_nil]
      cases v with
      | nil => simp [TrieNode.countOf]
      | cons d ds => simp [TrieNode.countOf]
  | cons c cs ih =>
    intro t hwf v
    cases t with
    | mk cnt ch =>
      obtain ⟨hcnt, hkeys, hall⟩ : 0 ≤ cnt ∧ ch.keys.Nodup ∧ ch.WfAll := hwf
      cases hf : ch.find? c with
      | none =>
        rw [TrieNode.remove_helper_cons_none cnt cs hf]
        have hw : (TrieNode.mk cnt ch).countOf (c :: cs) = 0 := by
          simp [TrieNode.countOf, hf]
        by_cases hv : v = c :: cs
        · simp [hv, hw]
        · simp [hv]
      | some child =>
        have hchild : child.Wf := (Children.wf_of_find? hall hf).1
        have hcw : (TrieNode.mk cnt ch).countOf (c :: cs) = child.countOf cs := by
          simp [TrieNode.countOf, hf]
        cases hdel : (child.remove_helper cs).2 with
        | true =>
          -- the child is erased; everything below it already counted zero
          rw [TrieNode.remove_helper_cons_del cnt cs hf hdel]
          have hshape := TrieNode.remove_helper_flag_shape cs child hdel
          have hzero : ∀ u, (child.remove_helper cs).1.countOf u = 0 := by
            intro u
            cases hrc : (child.remove_helper cs).1 with
            | mk c2 ch2 =>
              have h1 : ch2 = .nil := by
                have := hshape.1; rw [hrc] at this; exact this
              have h2 : c2 = 0 := by
                have := hshape.2; rw [hrc] at this; exact this
              exact TrieNode.countOf_zero_node h1 h2 u
          cases v with
          | nil => simp [TrieNode.countOf]
          | cons d ds =>
            by_cases hdc : d = c
            · subst hdc
              have hnone : (ch.erase d).find? d = none :=
                Children.find?_erase_self d hkeys
              have hres : (TrieNode.mk cnt (ch.erase d)).countOf (d :: ds) = 0 := by
                simp [TrieNode.countOf, hnone]
              have hvalue := hzero ds
              rw [ih child hchild ds] at hvalue
              by_cases hds : ds = cs
              · subst hds
                have hv2 : (child.countOf ds - 1) ⊔ 0 = 0 := by simpa using hvalue
                rw [hres, if_pos rfl, hcw]
                omega
              · have hv2 : child.countOf ds = 0 := by
                  rw [if_neg hds] at hvalue; exact hvalue
                have hvne : ¬ (d :: ds = d :: cs) := by simp [hds]
                rw [hres, if_neg hvne]
                simp [TrieNode.countOf, hf, hv2]
            · have hcd : c ≠ d := fun he => hdc he.symm
              have hvne : ¬ (d :: ds = c :: cs) := by simp [hdc]
              simp only [if_neg hvne]
              simp [TrieNode.countOf, Children.find?_erase_ne hcd]
        | false =>
          -- the child is kept, updated in place
          rw [TrieNode.remove_helper_cons_keep cnt cs hf hdel]
          cases v with
          | nil => simp [TrieNode.countOf]
          | cons d ds =>
            by_cases hdc : d = c
            · subst hdc
              have hupd := ih child hchild ds
              by_cases hds : ds = cs
              · subst hds
                have hupd2 : (child.remove_helper ds).1.countOf ds =
                    (child.countOf ds - 1) ⊔ 0 := by simpa using hupd
                rw [if_pos rfl, hcw]
                simp [TrieNode.countOf, Children.find?_set_self, hupd2]
              · simp only [if_neg hds] at hupd
                have hvne : ¬ (d :: ds = d :: cs) := by simp [hds]
                rw [if_neg hvne]
                simp [TrieNode.countOf, Children.find?_set_self, hupd, hf]
            · have hcd : c ≠ d := fun he => hdc he.symm
              have hvne : ¬ (d :: ds = c :: cs) := by simp [hdc]
              simp only [if_neg hvne]
              simp [TrieNode.countOf, Children.find?_set_ne hcd]

/- ## Well-formedness preservation -/

theorem TrieNode.default_wf : TrieNode.default.Wf := by
  simp [TrieNode.default, TrieNode.Wf, Children.keys, Children.WfAll]

theorem Children.set_wfAll {ch : Children} {c : Char} {t : TrieNode}
    (hall : ch.WfAll) (ht : t.Wf) (hl : t.live) : (ch.set c t).WfAll := by
  induction ch using Children.spineInd with
  | hnil => simp [Children.set, Children.WfAll]; exact ⟨ht, hl⟩
  | hcons c0 t0 rest ih =>
    obtain ⟨h1, h2, h3⟩ : t0.Wf ∧ t0.live ∧ rest.WfAll := hall
    by_cases h0 : c0 = c
    · simp only [Children.set, if_pos h0]
      exact ⟨ht, hl, h3⟩
    · simp only [Children.set, if_neg h0]
      exact ⟨h1, h2, ih h3⟩

theorem Children.erase_wfAll {ch : Children} (c : Char)
    (hall : ch.WfAll) : (ch.erase c).WfAll := by
  induction ch using Children.spineInd with
  | hnil => simp [Children.erase, Children.WfAll]
  | hcons c0 t0 rest ih =>
    obtain ⟨h1, h2, h3⟩ : t0.Wf ∧ t0.live ∧ rest.WfAll := hall
    by_cases h0 : c0 = c
    · simp only [Children.erase, if_pos h0]
      exact h3
    · simp only [Children.erase, if_neg h0]
      exact ⟨h1, h2, ih h3⟩

theorem TrieNode.insertW_live {t : TrieNode} (w : List Char)
    (hc : 0 ≤ t.word_count) : (t.insertW w).live := by
  cases t with
  | mk cnt ch =>
    cases w with
    | nil =>
      right
      simp only [TrieNode.insertW, TrieNode.word_count]
      simp only [TrieNode.word_count] at hc
      omega
    | cons c cs =>
      left
      simp only [TrieNode.insertW, TrieNode.children]
      exact Children.set_ne_nil ch c _

theorem TrieNode.insertW_wf (w : List Char) :
    ∀ (t : TrieNode), t.Wf → (t.insertW w).Wf := by
  induction w with
  | nil =>
    intro t hwf
    cases t with
    | mk cnt ch =>
      obtain ⟨hcnt, hkeys, hall⟩ : 0 ≤ cnt ∧ ch.keys.Nodup ∧ ch.WfAll := hwf
      exact ⟨by omega, hkeys, hall⟩
  | cons c cs ih =>
    intro t hwf
    cases t with
    | mk cnt ch =>
      obtain ⟨hcnt, hkeys, hall⟩ : 0 ≤ cnt ∧ ch.keys.Nodup ∧ ch.WfAll := hwf
      have hγ : ((ch.find? c).getD TrieNode.default).Wf := by
        cases hf : ch.find? c with
        | none => simpa using TrieNode.default_wf
        | some u => simpa using (Children.wf_of_find? hall hf).1
      have hγc : 0 ≤ ((ch.find? c).getD TrieNode.default).word_count := by
        cases hu : (ch.find? c).getD TrieNode.default with
        | mk c2 ch2 =>
          have := hγ
          rw [hu] at this
          exact this.1
      refine ⟨hcnt, Children.keys_set_nodup _ hkeys, ?_⟩
      exact Children.set_wfAll hall (ih _ hγ) (TrieNode.insertW_live cs hγc)

theorem Children.ne_nil_of_isEmpty_false {ch : Children}
    (h : ch.isEmpty = false) : ch ≠ .nil := by
  intro he; subst he; simp [Children.isEmpty] at h

theorem TrieNode.remove_helper_wf (w : List Char) :
    ∀ (t : TrieNode), t.Wf →
      (t.remove_helper w).1.Wf ∧
      ((t.remove_helper w).2 = false →
        ((t.remove_helper w).1.live ∨ (t.remove_helper w).1 = t)) := by
  induction w with
  | nil =>
    intro t hwf
    cases t with
    | mk cnt ch =>
      obtain ⟨hcnt, hkeys, hall⟩ : 0 ≤ cnt ∧ ch.keys.Nodup ∧ ch.WfAll := hwf
      rw [TrieNode.remove_helper_nil]
      refine ⟨⟨by omega, hkeys, hall⟩, ?_⟩
      intro hflag
      simp only [Bool.and_eq_false_iff, decide_eq_false_iff_not,
        Children.isEmpty_iff_nil] at hflag
      left
      rcases hflag with h | h
      · left
        simpa [TrieNode.children] using Children.ne_nil_of_isEmpty_false h
      · right
        simp only [TrieNode.word_count]
        omega
  | cons c cs ih =>
    intro t hwf
    cases t with
    | mk cnt ch =>
      obtain ⟨hcnt, hkeys, hall⟩ : 0 ≤ cnt ∧ ch.keys.Nodup ∧ ch.WfAll := hwf
      cases hf : ch.find? c with
      | none =>
        rw [TrieNode.remove_helper_cons_none cnt cs hf]
        exact ⟨⟨hcnt, hkeys, hall⟩, fun _ => Or.inr rfl⟩
      | some child =>
        obtain ⟨hcwf, hclive⟩ := Children.wf_of_find? hall hf
        cases hdel : (child.remove_helper cs).2 with
        | true =>
          rw [TrieNode.remove_helper_cons_del cnt cs hf hdel]
          refine ⟨⟨hcnt, Children.keys_erase_nodup c hkeys,
            Children.erase_wfAll c hall⟩, ?_⟩
          intro hflag
          simp only [Bool.and_eq_false_iff, decide_eq_false_iff_not,
            Children.isEmpty_iff_nil] at hflag
          left
          rcases hflag with h | h
          · left
            simpa [TrieNode.children] using Children.ne_nil_of_isEmpty_false h
          · right
            simp only [TrieNode.word_count]
            omega
        | false =>
          obtain ⟨h1wf, h1l⟩ := ih child hcwf
          have h1live : (child.remove_helper cs).1.live := by
            rcases h1l hdel with h | h
            · exact h
            · rw [h]; exact hclive
          rw [TrieNode.remove_helper_cons_keep cnt cs hf hdel]
          refine ⟨⟨hcnt, Children.keys_set_nodup _ hkeys,
            Children.set_wfAll hall h1wf h1live⟩, ?_⟩
          intro _
          left
          left
          simp only [TrieNode.children]
          exact Children.set_ne_nil ch c _

mutual
theorem TrieNode.wf_pruned (t : TrieNode) : t.Wf → t.Pruned := by
  cases t with
  | mk cnt ch =>
    intro hwf
    obtain ⟨hcnt, hkeys, hall⟩ : 0 ≤ cnt ∧ ch.keys.Nodup ∧ ch.WfAll := hwf
    exact ⟨hcnt, Children.wfAll_prunedAll ch hall⟩

theorem Children.wfAll_prunedAll (ch : Children) : ch.WfAll → ch.PrunedAll := by
  cases ch with
  | nil => intro _; trivial
  | cons c t rest =>
    intro hall
    obtain ⟨h1, h2, h3⟩ : t.Wf ∧ t.live ∧ rest.WfAll := hall
    exact ⟨h2, TrieNode.wf_pruned t h1, Children.wfAll_prunedAll rest h3⟩
end

/- ## Trie-level wrappers -/

theorem Trie.new_root_wf : Trie.new.root.Wf := TrieNode.default_wf

theorem Trie.insert_root_wf {t : Trie} (w : List Char) (h : t.root.Wf) :
    (t.insert w).root.Wf := TrieNode.insertW_wf w t.root h

theorem Trie.remove_root_wf {t : Trie} (w : List Char) (h : t.root.Wf) :
    (t.remove w).root.Wf := (TrieNode.remove_helper_wf w t.root h).1

theorem Trie.applyOp_root_wf {t : Trie} (o : TrieOp) (h : t.root.Wf) :
    (t.applyOp o).root.Wf := by
  cases o with
  | ins w => exact Trie.insert_root_wf w h
  | rem w => exact Trie.remove_root_wf w h

theorem Trie.applyOps_root_wf (ops : List TrieOp) :
    ∀ (t : Trie), t.root.Wf → (t.applyOps ops).root.Wf := by
  induction ops with
  | nil => intro t h; exact h
  | cons o rest ih =>
    intro t h
    exact ih (t.applyOp o) (Trie.applyOp_root_wf o h)

theorem Trie.countOf_insert (t : Trie) (w v : List Char) :
    (t.insert w).root.countOf v = t.root.countOf v + (if v = w then 1 else 0) :=
  TrieNode.countOf_insertW w t.root v

theorem Trie.countOf_remove (t : Trie) (hwf : t.root.Wf) (w v : List Char) :
    (t.remove w).root.countOf v =
      if v = w then max (t.root.countOf w - 1) 0 else t.root.countOf v :=
  TrieNode.countOf_remove_helper w t.root hwf v

theorem TrieNode.countOf_nonneg (w : List Char) :
    ∀ (t : TrieNode), t.Wf → 0 ≤ t.countOf w := by
  induction w with
  | nil =>
    intro t hwf
    cases t with
    | mk cnt ch => exact hwf.1
  | cons c cs ih =>
    intro t hwf
    cases t with
    | mk cnt ch =>
      obtain ⟨hcnt, hkeys, hall⟩ : 0 ≤ cnt ∧ ch.keys.Nodup ∧ ch.WfAll := hwf
      cases hf : ch.find? c with
      | none => simp [TrieNode.countOf, hf]
      | some child =>
        simp only [TrieNode.countOf, hf]
        exact ih child (Children.wf_of_find? hall hf).1

/- ## collect_words and suggest_completions -/

theorem TrieNode.countOf_cons (cnt : Int) (ch : Children) (c : Char) (s : List Char) :
    (TrieNode.mk cnt ch).countOf (c :: s) = ch.countIn c s := by
  simp only [TrieNode.countOf, Children.countIn]

theorem Children.countIn_cons (c0 : Char) (t : TrieNode) (rest : Children)
    (c : Char) (s : List Char) :
    (Children.cons c0 t rest).countIn c s =
      if c0 = c then t.countOf s else rest.countIn c s := by
  by_cases h0 : c0 = c <;> simp [Children.countIn, Children.find?, h0]

theorem Children.countIn_pos_mem_keys {ch : Children} {c : Char} {s : List Char}
    (h : 0 < ch.countIn c s) : c ∈ ch.keys := by
  cases hf : ch.find? c with
  | none => simp [Children.countIn, hf] at h
  | some u => exact Children.find?_isSome_mem_keys hf

mutual
theorem TrieNode.collect_shape (t : TrieNode) :
    ∀ w0 x, x ∈ t.collect_words w0 → w0 <+: x := by
  cases t with
  | mk cnt ch =>
    intro w0 x hx
    simp only [TrieNode.collect_words, List.mem_append] at hx
    rcases hx with hx | hx
    · have : x = w0 := by
        by_cases hc : cnt > 0 <;> simp [hc] at hx
        exact hx
      exact this ▸ List.prefix_refl _
    · obtain ⟨c, s, _, heq⟩ := Children.collect_each_shape ch w0 x hx
      exact heq ▸ ⟨c :: s, rfl⟩

theorem Children.collect_each_shape (ch : Children) :
    ∀ w0 x, x ∈ ch.collect_each w0 → ∃ c s, c ∈ ch.keys ∧ x = w0 ++ c :: s := by
  cases ch with
  | nil =>
    intro w0 x hx
    simp [Children.collect_each] at hx
  | cons c0 child rest =>
    intro w0 x hx
    simp only [Children.collect_each, List.mem_append] at hx
    rcases hx with hx | hx
    · obtain ⟨s, hs⟩ := TrieNode.collect_shape child (w0 ++ [c0]) x hx
      exact ⟨c0, s, by simp [Children.keys], by simp [← hs]⟩
    · obtain ⟨c, s, hmem, heq⟩ := Children.collect_each_shape rest w0 x hx
      exact ⟨c, s, by simp [Children.keys, hmem], heq⟩
end

mutual
theorem TrieNode.mem_collect_iff (t : TrieNode) :
    t.Wf → ∀ w0 x, (x ∈ t.collect_words w0 ↔ ∃ s, x = w0 ++ s ∧ 0 < t.countOf s) := by
  cases t with
  | mk cnt ch =>
    intro hwf w0 x
    obtain ⟨hcnt, hkeys, hall⟩ : 0 ≤ cnt ∧ ch.keys.Nodup ∧ ch.WfAll := hwf
    simp only [TrieNode.collect_words, List.mem_append]
    constructor
    · intro hx
      rcases hx with hx | hx
      · have hpos : cnt > 0 ∧ x = w0 := by
          by_cases hc : cnt > 0 <;> simp [hc] at hx
          exact ⟨hc, hx⟩
        exact ⟨[], by simp [hpos.2], by simpa [TrieNode.countOf] using hpos.1⟩
      · obtain ⟨c, s, heq, hpos⟩ :=
          (Children.mem_collect_each_iff ch hkeys hall w0 x).1 hx
        exact ⟨c :: s, heq, by simpa [TrieNode.countOf_cons] using hpos⟩
    · rintro ⟨s, heq, hpos⟩
      cases s with
      | nil =>
        left
        have : cnt > 0 := by simpa [TrieNode.countOf] using hpos
        simp [this, heq]
      | cons c s' =>
        right
        refine (Children.mem_collect_each_iff ch hkeys hall w0 x).2 ?_
        exact ⟨c, s', heq, by simpa [TrieNode.countOf_cons] using hpos⟩

theorem Children.mem_collect_each_iff (ch : Children) :
    ch.keys.Nodup → ch.WfAll → ∀ w0 x,
      (x ∈ ch.collect_each w0 ↔ ∃ c s, x = w0 ++ c :: s ∧ 0 < ch.countIn c s) := by
  cases ch with
  | nil =>
    intro _ _ w0 x
    simp [Children.collect_each, Children.countIn, Children.find?]
  | cons c0 child rest =>
    intro hkeys hall w0 x
    obtain ⟨hcwf, hclive, hrall⟩ : child.Wf ∧ child.live ∧ rest.WfAll := hall
    obtain ⟨hc0, hrkeys⟩ : c0 ∉ rest.keys ∧ rest.keys.Nodup := by
      simpa [Children.keys, List.nodup_cons] using hkeys
    simp only [Children.collect_each, List.mem_append]
    constructor
    · intro hx
      rcases hx with hx | hx
      · obtain ⟨s, heq, hpos⟩ :=
          (TrieNode.mem_collect_iff child hcwf (w0 ++ [c0]) x).1 hx
        exact ⟨c0, s, by simp [heq], by simp [Children.countIn_cons, hpos]⟩
      · obtain ⟨c, s, heq, hpos⟩ :=
          (Children.mem_collect_each_iff rest hrkeys hrall w0 x).1 hx
        have hcm : c ∈ rest.keys := Children.countIn_pos_mem_keys hpos
        have hne : ¬ c0 = c := fun he => hc0 (he ▸ hcm)
        exact ⟨c, s, heq, by simp [Children.countIn_cons, hne, hpos]⟩
    · rintro ⟨c, s, heq, hpos⟩
      by_cases h0 : c0 = c
      · subst h0
        left
        rw [Children.countIn_cons, if_pos rfl] at hpos
        refine (TrieNode.mem_collect_iff child hcwf (w0 ++ [c0]) x).2 ?_
        exact ⟨s, by simp [heq], hpos⟩
      · right
        rw [Children.countIn_cons, if_neg h0] at hpos
        refine (Children.mem_collect_each_iff rest hrkeys hrall w0 x).2 ?_
        exact ⟨c, s, heq, hpos⟩
end

mutual
theorem TrieNode.collect_nodup (t : TrieNode) :
    t.Wf → ∀ w0, (t.collect_words w0).Nodup := by
  cases t with
  | mk cnt ch =>
    intro hwf w0
    obtain ⟨hcnt, hkeys, hall⟩ : 0 ≤ cnt ∧ ch.keys.Nodup ∧ ch.WfAll := hwf
    simp only [TrieNode.collect_words]
    refine List.Nodup.append ?_ (Children.collect_each_nodup ch hkeys hall w0) ?_
    · by_cases hc : cnt > 0 <;> simp [hc]
    · intro x hx hx2
      have : x = w0 := by
        by_cases hc : cnt > 0 <;> simp [hc] at hx
        exact hx
      subst this
      obtain ⟨c, s, _, heq⟩ := Children.collect_each_shape ch x x hx2
      have := congrArg List.length heq
      simp at this

theorem Children.collect_each_nodup (ch : Children) :
    ch.keys.Nodup → ch.WfAll → ∀ w0, (ch.collect_each w0).Nodup := by
  cases ch with
  | nil =>
    intro _ _ w0
    simp [Children.collect_each]
  | cons c0 child rest =>
    intro hkeys hall w0
    obtain ⟨hcwf, hclive, hrall⟩ : child.Wf ∧ child.live ∧ rest.WfAll := hall
    obtain ⟨hc0, hrkeys⟩ : c0 ∉ rest.keys ∧ rest.keys.Nodup := by
      simpa [Children.keys, List.nodup_cons] using hkeys
    simp only [Children.collect_each]
    refine List.Nodup.append (TrieNode.collect_nodup child hcwf (w0 ++ [c0]))
      (Children.collect_each_nodup rest hrkeys hrall w0) ?_
    intro x hx hx2
    obtain ⟨s1, hs1⟩ := TrieNode.collect_shape child (w0 ++ [c0]) x hx
    obtain ⟨c, s2, hcm, heq⟩ := Children.collect_each_shape rest w0 x hx2
    have heq2 : w0 ++ c0 :: s1 = w0 ++ c :: s2 := by
      rw [← hs1] at heq
      simpa using heq
    have h3 := List.append_cancel_left heq2
    injection h3 with h4 h5
    exact hc0 (h4 ▸ hcm)
end

theorem TrieNode.mem_suggest_helper (query : List Char) :
    ∀ (t : TrieNode), t.Wf → ∀ full x,
      (x ∈ t.suggest_helper full query ↔
        ∃ s, x = full ++ s ∧ 0 < t.countOf (query ++ s)) := by
  induction query with
  | nil =>
    intro t hwf full x
    simpa [TrieNode.suggest_helper] using TrieNode.mem_collect_iff t hwf full x
  | cons c cs ih =>
    intro t hwf full x
    cases t with
    | mk cnt ch =>
      obtain ⟨hcnt, hkeys, hall⟩ : 0 ≤ cnt ∧ ch.keys.Nodup ∧ ch.WfAll := hwf
      cases hf : ch.find? c with
      | none =>
        simp only [TrieNode.suggest_helper, TrieNode.children, hf]
        constructor
        · intro hx; simp at hx
        · rintro ⟨s, heq, hpos⟩
          rw [List.cons_append, TrieNode.countOf_cons] at hpos
          simp [Children.countIn, hf] at hpos
      | some child =>
        simp only [TrieNode.suggest_helper, TrieNode.children, hf]
        rw [ih child (Children.wf_of_find? hall hf).1 full x]
        constructor
        · rintro ⟨s, heq, hpos⟩
          refine ⟨s, heq, ?_⟩
          rw [List.cons_append, TrieNode.countOf_cons]
          simpa [Children.countIn, hf] using hpos
        · rintro ⟨s, heq, hpos⟩
          refine ⟨s, heq, ?_⟩
          rw [List.cons_append, TrieNode.countOf_cons] at hpos
          simpa [Children.countIn, hf] using hpos

theorem TrieNode.suggest_helper_nodup (query : List Char) :
    ∀ (t : TrieNode), t.Wf → ∀ full, (t.suggest_helper full query).Nodup := by
  induction query with
  | nil =>
    intro t hwf full
    simpa [TrieNode.suggest_helper] using TrieNode.collect_nodup t hwf full
  | cons c cs ih =>
    intro t hwf full
    cases t with
    | mk cnt ch =>
      obtain ⟨hcnt, hkeys, hall⟩ : 0 ≤ cnt ∧ ch.keys.Nodup ∧ ch.WfAll := hwf
      cases hf : ch.find? c with
      | none => simp [TrieNode.suggest_helper, TrieNode.children, hf]
      | some child =>
        simp only [TrieNode.suggest_helper, TrieNode.children, hf]
        exact ih child (Children.wf_of_find? hall hf).1 full

theorem TrieNode.suggest_helper_nodeAt_none (query : List Char) :
    ∀ (t : TrieNode) (full : List Char), t.nodeAt? query = none →
      t.suggest_helper full query = [] := by
  induction query with
  | nil =>
    intro t full h
    simp [TrieNode.nodeAt?] at h
  | cons c cs ih =>
    intro t full h
    cases t with
    | mk cnt ch =>
      cases hf : ch.find? c with
      | none => simp [TrieNode.suggest_helper, TrieNode.children, hf]
      | some child =>
        simp only [TrieNode.suggest_helper, TrieNode.children, hf]
        simp only [TrieNode.nodeAt?, hf] at h
        exact ih child full h

theorem Trie.mem_suggest {t : Trie} (hwf : t.root.Wf) (p x : List Char) :
    x ∈ t.suggest_completions p ↔ p <+: x ∧ 0 < t.root.countOf x := by
  rw [Trie.suggest_completions, TrieNode.mem_suggest_helper p t.root hwf p x]
  constructor
  · rintro ⟨s, heq, hpos⟩
    exact ⟨⟨s, heq.symm⟩, heq ▸ hpos⟩
  · rintro ⟨⟨s, hs⟩, hpos⟩
    exact ⟨s, hs.symm, hs.symm ▸ hpos⟩

theorem Trie.suggest_nodup {t : Trie} (hwf : t.root.Wf) (p : List Char) :
    (t.suggest_completions p).Nodup :=
  TrieNode.suggest_helper_nodup p t.root hwf p

theorem Trie.suggest_eq_nil_of_no_path {t : Trie} (p : List Char)
    (h : t.root.nodeAt? p = none) : t.suggest_completions p = [] :=
  TrieNode.suggest_helper_nodeAt_none p t.root p h

/- ## Removal of an unstored word is a no-op -/

theorem Children.pruned_of_find? {ch : Children} {c : Char} {u : TrieNode}
    (hall : ch.PrunedAll) (hf : ch.find? c = some u) : u.live ∧ u.Pruned := by
  induction ch using Children.spineInd with
  | hnil => simp [Children.find?] at hf
  | hcons c0 t0 rest ih =>
    obtain ⟨h1, h2, h3⟩ : t0.live ∧ t0.Pruned ∧ rest.PrunedAll := hall
    by_cases h0 : c0 = c
    · simp [Children.find?, h0] at hf
      exact hf ▸ ⟨h1, h2⟩
    · simp only [Children.find?, if_neg h0] at hf
      exact ih h3 hf

theorem TrieNode.remove_helper_noop (w : List Char) :
    ∀ (t : TrieNode), t.Pruned → t.live → t.countOf w = 0 →
      t.remove_helper w = (t, false) := by
  induction w with
  | nil =>
    intro t hp hl h0
    cases t with
    | mk cnt ch =>
      have hcnt : cnt = 0 := by simpa [TrieNode.countOf] using h0
      subst hcnt
      have hch : ch ≠ .nil := by
        rcases hl with h | h
        · simpa [TrieNode.children] using h
        · simp [TrieNode.word_count] at h
      have hemp : ch.isEmpty = false := by
        cases ch with
        | nil => simp at hch
        | cons c t rest => simp [Children.isEmpty]
      rw [TrieNode.remove_helper_nil]
      simp [hemp]
  | cons c cs ih =>
    intro t hp hl h0
    cases t with
    | mk cnt ch =>
      obtain ⟨hcnt, hall⟩ : 0 ≤ cnt ∧ ch.PrunedAll := hp
      cases hf : ch.find? c with
      | none => exact TrieNode.remove_helper_cons_none cnt cs hf
      | some child =>
        obtain ⟨hclive, hcp⟩ := Children.pruned_of_find? hall hf
        have hc0 : child.countOf cs = 0 := by
          simpa [TrieNode.countOf, hf] using h0
        have hrec := ih child hcp hclive hc0
        have hdel : (child.remove_helper cs).2 = false := by rw [hrec]
        rw [TrieNode.remove_helper_cons_keep cnt cs hf hdel]
        rw [hrec]
        simp [Children.set_find?_self_eq hf]

theorem Trie.remove_noop {t : Trie} (w : List Char) (hp : t.root.Pruned)
    (h0 : t.root.countOf w = 0) : t.remove w = t := by
  cases t with
  | mk root =>
    by_cases hl : root.live
    · have hnoop := TrieNode.remove_helper_noop w root hp hl h0
      simp [Trie.remove, hnoop]
    · cases root with
      | mk cnt ch =>
        obtain ⟨hcnt, hall⟩ : 0 ≤ cnt ∧ ch.PrunedAll := hp
        simp only [TrieNode.live, TrieNode.children, TrieNode.word_count,
          not_or, not_lt, not_not] at hl
        have hch : ch = Children.nil := hl.1
        have hc0 : cnt = 0 := by
          have := hl.2
          omega
        subst hch hc0
        cases w with
        | nil =>
          simp [Trie.remove, TrieNode.remove_helper_nil]
        | cons c cs =>
          have hf : Children.nil.find? c = none := by simp [Children.find?]
          simp [Trie.remove, TrieNode.remove_helper_cons_none 0 cs hf]

/- ## A fully-emptied well-formed trie is the bare root -/

mutual
theorem TrieNode.eq_default_of_wf_allZero (t : TrieNode) :
    t.Wf → (∀ s, t.countOf s = 0) → t = TrieNode.default := by
  cases t with
  | mk cnt ch =>
    intro hwf hz
    obtain ⟨hcnt, hkeys, hall⟩ : 0 ≤ cnt ∧ ch.keys.Nodup ∧ ch.WfAll := hwf
    have h0 : cnt = 0 := by simpa [TrieNode.countOf] using hz []
    have hch : ch = .nil := by
      refine Children.eq_nil_of_wfAll_allZero ch hall ?_
      intro c s
      have := hz (c :: s)
      rwa [TrieNode.countOf_cons] at this
    rw [h0, hch]
    rfl

theorem Children.eq_nil_of_wfAll_allZero (ch : Children) :
    ch.WfAll → (∀ c s, ch.countIn c s = 0) → ch = .nil := by
  cases ch with
  | nil => intro _ _; rfl
  | cons c0 child rest =>
    intro hall hz
    obtain ⟨hcwf, hclive, hrall⟩ : child.Wf ∧ child.live ∧ rest.WfAll := hall
    have hcz : ∀ s, child.countOf s = 0 := by
      intro s
      have := hz c0 s
      rwa [Children.countIn_cons, if_pos rfl] at this
    have := TrieNode.eq_default_of_wf_allZero child hcwf hcz
    subst this
    rcases hclive with h | h
    · simp [TrieNode.default, TrieNode.children] at h
    · simp [TrieNode.default, TrieNode.word_count] at h
end

/- ## Counting across operation sequences -/

theorem Trie.applyOps_nil (t : Trie) : t.applyOps [] = t := rfl

theorem Trie.applyOps_cons (t : Trie) (o : TrieOp) (rest : List TrieOp) :
    t.applyOps (o :: rest) = (t.applyOp o).applyOps rest := rfl

theorem Trie.new_countOf (w : List Char) : Trie.new.root.countOf w = 0 :=
  TrieNode.countOf_default w

theorem Trie.countOf_applyOps_no_removal (ops : List TrieOp) (w : List Char) :
    ∀ (t : Trie), t.root.Wf → ops.count (TrieOp.rem w) = 0 →
      (t.applyOps ops).root.countOf w =
        t.root.countOf w + ops.count (TrieOp.ins w) := by
  induction ops with
  | nil => intro t _ _; simp [Trie.applyOps_nil]
  | cons o rest ih =>
    intro t hwf hno
    rw [List.count_cons] at hno
    have hrest : rest.count (TrieOp.rem w) = 0 := by
      by_cases h : o = TrieOp.rem w
      · simp [h] at hno
      · simp [h] at hno
        omega
    have hne : o ≠ TrieOp.rem w := by
      intro h
      simp [h] at hno
    rw [Trie.applyOps_cons, List.count_cons]
    cases o with
    | ins v =>
      have hstep : (t.applyOp (TrieOp.ins v)).root.countOf w =
          t.root.countOf w + (if w = v then 1 else 0) := by
        simpa [Trie.applyOp] using Trie.countOf_insert t v w
      rw [ih (t.applyOp (TrieOp.ins v))
        (Trie.applyOp_root_wf (TrieOp.ins v) hwf) hrest, hstep]
      by_cases hv : w = v
      · subst hv
        simp
        ring
      · have hv2 : ¬ (TrieOp.ins v = TrieOp.ins w) := by
          intro he
          injection he with h2
          exact hv h2.symm
        simp [hv, hv2]
    | rem v =>
      have hvw : ¬ (w = v) := by
        intro h
        exact hne (by simp [h])
      have hstep : (t.applyOp (TrieOp.rem v)).root.countOf w = t.root.countOf w := by
        have := Trie.countOf_remove t hwf v w
        simpa [Trie.applyOp, if_neg hvw] using this
      rw [ih (t.applyOp (TrieOp.rem v))
        (Trie.applyOp_root_wf (TrieOp.rem v) hwf) hrest, hstep]
      simp

/-- When a word is only ever removed while its count is still positive, the
count after a sequence of operations is the starting count plus the number
of inserts minus the number of removes.  The hypothesis demands just that:
along every prefix of the sequence, the removes of a word never outnumber
its inserts plus its starting count. -/
theorem Trie.countOf_applyOps (ops : List TrieOp) :
    ∀ (t : Trie), t.root.Wf →
      (∀ w pre, pre <+: ops →
        ((pre.count (TrieOp.rem w) : Int) ≤
          t.root.countOf w + pre.count (TrieOp.ins w))) →
      ∀ w, (t.applyOps ops).root.countOf w =
        t.root.countOf w + ops.count (TrieOp.ins w) - ops.count (TrieOp.rem w) := by
  induction ops with
  | nil => intro t _ _ w; simp [Trie.applyOps_nil]
  | cons o rest ih =>
    intro t hwf hfe w
    cases o with
    | ins u =>
      have hwf1 : (t.applyOp (TrieOp.ins u)).root.Wf :=
        Trie.applyOp_root_wf (TrieOp.ins u) hwf
      have hstep : ∀ v, (t.applyOp (TrieOp.ins u)).root.countOf v =
          t.root.countOf v + (if v = u then 1 else 0) := by
        intro v
        simpa [Trie.applyOp] using Trie.countOf_insert t u v
      have hfe1 : ∀ v pre, pre <+: rest →
          ((pre.count (TrieOp.rem v) : Int) ≤
            (t.applyOp (TrieOp.ins u)).root.countOf v + pre.count (TrieOp.ins v)) := by
        intro v pre hpre
        obtain ⟨s, hs⟩ := hpre
        have hthis := hfe v (TrieOp.ins u :: pre) ⟨s, by simp [hs]⟩
        rw [List.count_cons, List.count_cons] at hthis
        simp only [beq_iff_eq] at hthis
        have h2 : ¬ (TrieOp.ins u = TrieOp.rem v) := by intro he; injection he
        rw [if_neg h2] at hthis
        rw [hstep v]
        by_cases hv : v = u
        · subst hv
          rw [if_pos rfl] at hthis
          rw [if_pos rfl]
          push_cast at hthis ⊢
          omega
        · have h3 : ¬ (TrieOp.ins u = TrieOp.ins v) := by
            intro he; injection he with h4; exact hv h4.symm
          rw [if_neg h3] at hthis
          rw [if_neg hv]
          push_cast at hthis ⊢
          omega
      rw [Trie.applyOps_cons, ih (t.applyOp (TrieOp.ins u)) hwf1 hfe1 w,
        hstep w, List.count_cons, List.count_cons]
      simp only [beq_iff_eq]
      have h2 : ¬ (TrieOp.ins u = TrieOp.rem w) := by intro he; injection he
      rw [if_neg h2]
      by_cases hv : w = u
      · subst hv
        rw [if_pos rfl, if_pos rfl]
        push_cast
        ring
      · have h3 : ¬ (TrieOp.ins u = TrieOp.ins w) := by
          intro he; injection he with h4; exact hv h4.symm
        rw [if_neg hv, if_neg h3]
        push_cast
        ring
    | rem u =>
      have hwf1 : (t.applyOp (TrieOp.rem u)).root.Wf :=
        Trie.applyOp_root_wf (TrieOp.rem u) hwf
      have hge : (1 : Int) ≤ t.root.countOf u := by
        have := hfe u [TrieOp.rem u] ⟨rest, rfl⟩
        simpa using this
      have hstep : ∀ v, (t.applyOp (TrieOp.rem u)).root.countOf v =
          t.root.countOf v - (if v = u then 1 else 0) := by
        intro v
        show (t.remove u).root.countOf v = _
        rw [Trie.countOf_remove t hwf u v]
        by_cases hv : v = u
        · rw [if_pos hv, if_pos hv]
          subst hv
          omega
        · rw [if_neg hv, if_neg hv]
          omega
      have hfe1 : ∀ v pre, pre <+: rest →
          ((pre.count (TrieOp.rem v) : Int) ≤
            (t.applyOp (TrieOp.rem u)).root.countOf v + pre.count (TrieOp.ins v)) := by
        intro v pre hpre
        obtain ⟨s, hs⟩ := hpre
        have hthis := hfe v (TrieOp.rem u :: pre) ⟨s, by simp [hs]⟩
        rw [List.count_cons, List.count_cons] at hthis
        simp only [beq_iff_eq] at hthis
        have h2 : ¬ (TrieOp.rem u = TrieOp.ins v) := by intro he; injection he
        rw [if_neg h2] at hthis
        rw [hstep v]
        by_cases hv : v = u
        · subst hv
          rw [if_pos rfl] at hthis
          rw [if_pos rfl]
          push_cast at hthis ⊢
          omega
        · have h3 : ¬ (TrieOp.rem u = TrieOp.rem v) := by
            intro he; injection he with h4; exact hv h4.symm
          rw [if_neg h3] at hthis
          rw [if_neg hv]
          push_cast at hthis ⊢
          omega
      rw [Trie.applyOps_cons, ih (t.applyOp (TrieOp.rem u)) hwf1 hfe1 w,
        hstep w, List.count_cons, List.count_cons]
      simp only [beq_iff_eq]
      have h2 : ¬ (TrieOp.rem u = TrieOp.ins w) := by intro he; injection he
      rw [if_neg h2]
      by_cases hv : w = u
      · subst hv
        rw [if_pos rfl, if_pos rfl]
        push_cast
        ring
      · have h3 : ¬ (TrieOp.rem u = TrieOp.rem w) := by
          intro he; injection he with h4; exact hv h4.symm
        rw [if_neg hv, if_neg h3]
        push_cast
        ring

/- ## Claim theorems for the trie -/

/-- C3: in every trie state reachable from the empty trie by any finite
sequence of insert and remove calls, every node other than the root has at
least one child or a strictly positive count, and every count is
non-negative — remove prunes bottom-up every node left with no children
and count 0. -/
theorem C3_reachable_pruned (ops : List TrieOp) :
    (Trie.applyOps Trie.new ops).root.Pruned :=
  TrieNode.wf_pruned _ (Trie.applyOps_root_wf ops Trie.new Trie.new_root_wf)

/-- C4: in a reachable trie state whose operation sequence inserted the
word `w` exactly once and never removed it, `suggest_completions p`
contains `w` exactly when `p` is a prefix of `w`; and on any trie,
suggesting a prefix reachable by no path yields the empty collection. -/
theorem C4_suggest_contains_iff (ops : List TrieOp) (w p : List Char)
    (h1 : ops.count (TrieOp.ins w) = 1) (h2 : ops.count (TrieOp.rem w) = 0) :
    (w ∈ (Trie.applyOps Trie.new ops).suggest_completions p ↔ p <+: w) ∧
    (∀ (t : Trie) (q : List Char), t.root.nodeAt? q = none →
      t.suggest_completions q = []) := by
  constructor
  · have hwf := Trie.applyOps_root_wf ops Trie.new Trie.new_root_wf
    have hcnt := Trie.countOf_applyOps_no_removal ops w Trie.new Trie.new_root_wf h2
    rw [Trie.new_countOf, h1] at hcnt
    rw [Trie.mem_suggest hwf p w]
    constructor
    · exact fun h => h.1
    · intro hp
      refine ⟨hp, ?_⟩
      rw [hcnt]
      norm_num
  · intro t q h
    exact Trie.suggest_eq_nil_of_no_path q h

theorem C4_suggest_contains_iff_witness :
    (['a'] ∈ (Trie.applyOps Trie.new [TrieOp.ins ['a']]).suggest_completions [] ↔
      [] <+: ['a']) ∧
    (∀ (t : Trie) (q : List Char), t.root.nodeAt? q = none →
      t.suggest_completions q = []) :=
  C4_suggest_contains_iff [TrieOp.ins ['a']] ['a'] [] (by decide) (by decide)

/-- C5: starting from the empty trie, inserting each word of a finite set
exactly once and removing each exactly once, interleaved so that every
word is inserted before it is removed, returns the trie to the bare root:
no children and count 0. -/
theorem C5_insert_then_remove_all (ops : List TrieOp)
    (h1 : ∀ w, ops.count (TrieOp.ins w) ≤ 1)
    (h2 : ∀ w, ops.count (TrieOp.ins w) = ops.count (TrieOp.rem w))
    (h3 : ∀ w pre, pre <+: ops →
      pre.count (TrieOp.rem w) ≤ pre.count (TrieOp.ins w)) :
    Trie.applyOps Trie.new ops = Trie.new := by
  have hwf := Trie.applyOps_root_wf ops Trie.new Trie.new_root_wf
  have hfe : ∀ w pre, pre <+: ops →
      ((pre.count (TrieOp.rem w) : Int) ≤
        Trie.new.root.countOf w + pre.count (TrieOp.ins w)) := by
    intro w pre hpre
    rw [Trie.new_countOf]
    have := h3 w pre hpre
    omega
  have hz : ∀ w, (Trie.applyOps Trie.new ops).root.countOf w = 0 := by
    intro w
    rw [Trie.countOf_applyOps ops Trie.new Trie.new_root_wf hfe w,
      Trie.new_countOf, h2 w]
    ring
  have hroot := TrieNode.eq_default_of_wf_allZero _ hwf hz
  calc Trie.applyOps Trie.new ops = ⟨(Trie.applyOps Trie.new ops).root⟩ := rfl
    _ = ⟨TrieNode.default⟩ := by rw [hroot]
    _ = Trie.new := rfl

theorem C5_insert_then_remove_all_witness :
    Trie.applyOps Trie.new [TrieOp.ins ['a'], TrieOp.rem ['a']] = Trie.new := by
  refine C5_insert_then_remove_all _ ?_ ?_ ?_
  · intro w
    by_cases h : w = ['a'] <;> simp [h]
  · intro w
    by_cases h : w = ['a'] <;> simp [h]
  · intro w pre hpre
    obtain ⟨s, hs⟩ := hpre
    cases pre with
    | nil => simp
    | cons x xs =>
      cases xs with
      | nil =>
        have hx : x = TrieOp.ins ['a'] := by
          have := congrArg (fun l => l.head?) hs
          simpa using this
        subst hx
        by_cases h : w = ['a'] <;> simp [h]
      | cons y ys =>
        have hlen := congrArg List.length hs
        simp at hlen
        have hys : ys = [] := by
          cases ys with
          | nil => rfl
          | cons z zs => simp at hlen
        subst hys
        simp at hs
        obtain ⟨hx, hy, _⟩ := hs
        subst hx hy
        by_cases h : w = ['a'] <;> simp [h]

/-- C6: multiplicity semantics over any reachable state — inserting `w`
twice then removing it once keeps `w` suggestible for every prefix of `w`;
when nothing else contributes to `w`, a second removal makes it
unsuggestible: a word stays suggestible exactly while its count is
positive. -/
theorem C6_multiplicity (ops : List TrieOp) (w p : List Char) :
    (p <+: w →
      w ∈ ((((Trie.applyOps Trie.new ops).insert w).insert w).remove w).suggest_completions p) ∧
    ((Trie.applyOps Trie.new ops).root.countOf w = 0 →
      w ∉ (((((Trie.applyOps Trie.new ops).insert w).insert w).remove w).remove w).suggest_completions p) := by
  have hwf0 : (Trie.applyOps Trie.new ops).root.Wf :=
    Trie.applyOps_root_wf ops Trie.new Trie.new_root_wf
  have hnn : 0 ≤ (Trie.applyOps Trie.new ops).root.countOf w :=
    TrieNode.countOf_nonneg w _ hwf0
  have hwf1 := Trie.insert_root_wf w hwf0
  have hwf2 := Trie.insert_root_wf w hwf1
  have hwf3 := Trie.remove_root_wf w hwf2
  have hc1 := Trie.countOf_insert (Trie.applyOps Trie.new ops) w w
  have hc2 := Trie.countOf_insert ((Trie.applyOps Trie.new ops).insert w) w w
  have hc3 := Trie.countOf_remove ((Trie.applyOps Trie.new ops).insert w |>.insert w) hwf2 w w
  rw [if_pos rfl] at hc1 hc2 hc3
  constructor
  · intro hp
    rw [Trie.mem_suggest hwf3 p w]
    refine ⟨hp, ?_⟩
    rw [hc3, hc2, hc1]
    omega
  · intro h0
    have hwf4 := Trie.remove_root_wf w hwf3
    have hc4 := Trie.countOf_remove (((Trie.applyOps Trie.new ops).insert w |>.insert w).remove w) hwf3 w w
    rw [if_pos rfl] at hc4
    rw [Trie.mem_suggest hwf4 p w]
    rintro ⟨_, hpos⟩
    rw [hc4, hc3, hc2, hc1, h0] at hpos
    omega

theorem C6_multiplicity_witness :
    ['a'] ∈ ((((Trie.applyOps Trie.new []).insert ['a']).insert ['a']).remove ['a']).suggest_completions [] ∧
    ['a'] ∉ (((((Trie.applyOps Trie.new []).insert ['a']).insert ['a']).remove ['a']).remove ['a']).suggest_completions [] :=
  ⟨(C6_multiplicity [] ['a'] []).1 ⟨['a'], rfl⟩,
   (C6_multiplicity [] ['a'] []).2 (by decide)⟩

/-- C7: in any reachable trie state, removing a word that is not stored
(terminal count 0 or path absent — either way its observed count is 0)
leaves every suggest result unchanged; `remove` is total and never
signals an error. -/
theorem C7_remove_unstored_noop (ops : List TrieOp) (w : List Char)
    (h : (Trie.applyOps Trie.new ops).root.countOf w = 0) :
    ∀ p, ((Trie.applyOps Trie.new ops).remove w).suggest_completions p =
      (Trie.applyOps Trie.new ops).suggest_completions p := by
  intro p
  rw [Trie.remove_noop w
    (TrieNode.wf_pruned _ (Trie.applyOps_root_wf ops Trie.new Trie.new_root_wf)) h]

theorem C7_remove_unstored_noop_witness :
    ((Trie.applyOps Trie.new [TrieOp.ins ['b']]).remove ['a']).suggest_completions [] =
      (Trie.applyOps Trie.new [TrieOp.ins ['b']]).suggest_completions [] :=
  C7_remove_unstored_noop [TrieOp.ins ['b']] ['a'] (by decide) []

/-- C10: in every reachable trie state, suggesting the empty prefix
enumerates exactly the words with positive count, each exactly once. -/
theorem C10_suggest_empty_enumerates (ops : List TrieOp) :
    (∀ x, x ∈ (Trie.applyOps Trie.new ops).suggest_completions [] ↔
      0 < (Trie.applyOps Trie.new ops).root.countOf x) ∧
    ((Trie.applyOps Trie.new ops).suggest_completions []).Nodup := by
  have hwf := Trie.applyOps_root_wf ops Trie.new Trie.new_root_wf
  constructor
  · intro x
    rw [Trie.mem_suggest hwf [] x]
    simp
  · exact Trie.suggest_nodup hwf []

/- ## Tokenizer refinement (C8) -/

theorem splitRuns_ne_nil (p : Char → Bool) (l : List Char) :
    splitRuns p l ≠ [] := by
  cases l with
  | nil => simp [splitRuns]
  | cons c cs =>
    simp only [splitRuns]
    cases splitRuns p cs with
    | nil => simp
    | cons r rs => by_cases h : p c <;> simp [h]

theorem is_token_nil (min_len : Nat) : is_token [] min_len = false := by
  cases min_len with
  | zero => simp [is_token]
  | succ n => simp [is_token]

theorem is_token_eq_accepts (r : List Char) (min_len : Nat) :
    is_token r min_len = (!r.isEmpty && spec_accepts r min_len) := by
  cases r with
  | nil => simp [is_token_nil]
  | cons a as =>
    simp only [is_token, spec_accepts, List.isEmpty_cons, Bool.not_false,
      Bool.true_and, List.head?_cons]
    by_cases h1 : (a :: as).length < min_len
    · rw [if_pos h1]
      have h2 : decide (min_len ≤ (a :: as).length) = false := by
        rw [decide_eq_false_iff_not]
        omega
      rw [h2]
      simp
    · rw [if_neg h1]
      have h2 : decide (min_len ≤ (a :: as).length) = true := by
        rw [decide_eq_true_eq]
        omega
      rw [h2]
      by_cases h3 : ((a :: as).all fun c => c.isDigit) = true
      · rw [if_pos h3, h3]
        simp
      · rw [if_neg h3]
        rw [Bool.not_eq_true] at h3
        rw [h3]
        simp

theorem process_token_go (min_len : Nat) (token : List Char) :
    ∀ (acc : List (List Char)) (cur : List Char),
      (if is_token (token.foldl (process_step min_len) (acc, cur)).2 min_len
       then (token.foldl (process_step min_len) (acc, cur)).1 ++
         [(token.foldl (process_step min_len) (acc, cur)).2]
       else (token.foldl (process_step min_len) (acc, cur)).1) =
      acc ++ ((cur ++ (splitRuns (fun c => !valid_token_char c) token).headI) ::
        (splitRuns (fun c => !valid_token_char c) token).tail).filter
          (fun r => is_token r min_len) := by
  induction token with
  | nil =>
    intro acc cur
    simp only [List.foldl_nil, splitRuns, List.headI, List.tail]
    by_cases h : is_token cur min_len = true
    · simp [h, List.filter]
    · simp only [List.filter]
      rw [Bool.not_eq_true] at h
      simp [h]
  | cons c cs ih =>
    intro acc cur
    cases hsp : splitRuns (fun c => !valid_token_char c) cs with
    | nil => exact absurd hsp (splitRuns_ne_nil _ cs)
    | cons r rs =>
      by_cases hv : valid_token_char c
      · have hstep : process_step min_len (acc, cur) c = (acc, cur ++ [c]) := by
          simp [process_step, hv]
        rw [List.foldl_cons, hstep, ih acc (cur ++ [c])]
        simp only [splitRuns, hsp, hv, Bool.not_true, if_false, List.headI,
          List.tail]
        simp
      · have hstep : process_step min_len (acc, cur) c =
            (if is_token cur min_len then acc ++ [cur] else acc, []) := by
          simp [process_step, hv]
        rw [List.foldl_cons, hstep,
          ih (if is_token cur min_len then acc ++ [cur] else acc) []]
        simp only [splitRuns, hsp, hv, Bool.not_false, if_true, List.headI,
          List.tail, List.nil_append]
        rw [List.filter_cons, List.filter_cons]
        by_cases h : is_token cur min_len = true
        · simp [h, List.filter_cons]
        · rw [Bool.not_eq_true] at h
          simp [h, List.filter_cons]

theorem process_token_eq_filter (token : List Char) (min_len : Nat) :
    process_token token min_len =
      (splitRuns (fun c => !valid_token_char c) token).filter
        (fun r => is_token r min_len) := by
  have hgo := process_token_go min_len token [] []
  cases hsp : splitRuns (fun c => !valid_token_char c) token with
  | nil => exact absurd hsp (splitRuns_ne_nil _ token)
  | cons r rs =>
    rw [hsp] at hgo
    simpa [process_token, List.headI, List.tail] using hgo

/-- C8: `process_token` splits its input on maximal runs of characters
that are not alphanumeric and not underscore, and accepts a run exactly
when its length is at least `min_len`, it is not composed entirely of
digits, and its first character is not a digit. -/
theorem C8_tokenize_policy (text : List Char) (min_len : Nat) :
    process_token text min_len = spec_tokens text min_len := by
  rw [process_token_eq_filter, spec_tokens, maximalRuns, List.filter_filter]
  refine List.filter_congr ?_
  intro r _
  rw [is_token_eq_accepts]
  rw [Bool.and_comm]

/- ## CompletionQuery scans (C9) -/

theorem scan_back_fuel_ge_neg_one (line : List Char) :
    ∀ (fuel : Nat) (i : Int), -1 ≤ i → -1 ≤ scan_back_fuel line fuel i := by
  intro fuel
  induction fuel with
  | zero =>
    intro i h
    simpa [scan_back_fuel] using h
  | succ f ih =>
    intro i h
    simp only [scan_back_fuel]
    by_cases hc : 0 ≤ i ∧ valid_token_char (line.getD i.toNat ' ')
    · rw [if_pos hc]
      exact ih (i - 1) (by omega)
    · rw [if_neg hc]
      exact h

theorem scan_forward_fuel_eq (line : List Char) :
    ∀ (fuel : Nat) (i : Int) (cur : List Char) (acc : List (List Char)),
      0 ≤ i → fuel = ((line.length : Int) - i).toNat →
      scan_forward_fuel line fuel i cur acc =
        acc ++ (headPrefixes ((line.drop i.toNat).takeWhile valid_token_char)).map
          (fun x => cur ++ x) := by
  intro fuel
  induction fuel with
  | zero =>
    intro i cur acc hi hfuel
    have hdrop : line.drop i.toNat = [] := by
      apply List.drop_eq_nil_of_le
      omega
    simp [scan_forward_fuel, hdrop, headPrefixes]
  | succ f ih =>
    intro i cur acc hi hfuel
    have hidx : i.toNat < line.length := by omega
    have hget : line.getD i.toNat ' ' = line.get ⟨i.toNat, hidx⟩ :=
      List.getD_eq_get line ' ' hidx
    have hdrop : line.drop i.toNat = line.get ⟨i.toNat, hidx⟩ :: line.drop (i.toNat + 1) :=
      List.drop_eq_get_cons hidx
    by_cases hv : valid_token_char (line.getD i.toNat ' ')
    · have hcond : 0 ≤ i ∧ i < (line.length : Int) ∧
          valid_token_char (line.getD i.toNat ' ') := ⟨hi, by omega, hv⟩
      simp only [scan_forward_fuel]
      rw [if_pos hcond]
      have hnext : f = ((line.length : Int) - (i + 1)).toNat := by omega
      rw [ih (i + 1) (cur ++ [line.getD i.toNat ' '])
        (acc ++ [cur ++ [line.getD i.toNat ' ']]) (by omega) hnext]
      have ht : (i + 1).toNat = i.toNat + 1 := by omega
      rw [ht, hdrop, hget]
      rw [List.takeWhile_cons_of_pos (by rw [← hget]; exact hv)]
      simp [headPrefixes, List.map_map, Function.comp]
    · have hcond : ¬ (0 ≤ i ∧ i < (line.length : Int) ∧
          valid_token_char (line.getD i.toNat ' ')) := by
        intro hc
        exact hv hc.2.2
      simp only [scan_forward_fuel]
      rw [if_neg hcond]
      rw [hdrop]
      rw [List.takeWhile_cons_of_neg (by rw [← hget]; exact hv)]
      simp [headPrefixes]

/-- C9 counterexample: at line `"   ios::sync"` and cursor column 10 the
code emits the prefixes of the whole token (`s`, `sy`, `syn`, `sync` —
its own unit test asserts this), whereas the claim's reading — the
forward walk stops at the cursor column — predicts only `s`, `sy`. -/
theorem C9_counterexample :
    get_possible_current_word "   ios::sync".toList 10 ≠
      claim_visible "   ios::sync".toList 10 := by decide

/-- C9 (amended): for every line and non-negative cursor column,
`get_possible_current_word` scans backward to the start of the current
token and then returns the non-empty ascending prefixes of the **whole**
maximal valid run starting there — the forward walk continues to the end
of the token (first invalid character or end of line) rather than
stopping at the cursor column, so characters at or after the cursor do
contribute. -/
theorem C9_visible_prefixes (line : List Char) (character : Int)
    (h : 0 ≤ character) :
    get_possible_current_word line character = code_visible line character := by
  have hi0 : -1 ≤ min (character - 1) ((line.length : Int) - 1) := by omega
  have hs : -1 ≤ scan_back line (min (character - 1) ((line.length : Int) - 1)) := by
    rw [scan_back]
    exact scan_back_fuel_ge_neg_one line _ _ hi0
  simp only [get_possible_current_word, code_visible, token_start, scan_forward]
  rw [scan_forward_fuel_eq line _ _ [] [] (by omega) rfl]
  simp

theorem C9_visible_prefixes_witness :
    get_possible_current_word "ab".toList 1 = code_visible "ab".toList 1 :=
  C9_visible_prefixes "ab".toList 1 (by decide)

/- ## Document store lemmas -/

theorem docFind?_none_docErase {docs : List (String × List Char)} {uri : String}
    (h : docFind? docs uri = none) : docErase docs uri = docs := by
  induction docs with
  | nil => simp [docErase]
  | cons p rest ih =>
    obtain ⟨u, c⟩ := p
    by_cases h0 : u = uri
    · simp [docFind?, h0] at h
    · simp only [docFind?, if_neg h0] at h
      simp [docErase, h0, ih h]

/-- C2 counterexample: a change notification for a uri that was never
opened still changes the state — the fragment's tokens are inserted into
the trie. -/
theorem C2_counterexample :
    did_change BackendState.empty "d" ["foo".toList] 2 ≠ BackendState.empty := by
  decide

/-- C2 (amended): closing an unknown document identifier is a complete
no-op on the state; changing an unknown identifier leaves the document
store unchanged and removes nothing, but still inserts every delivered
fragment's tokens into the trie (so suggest results can change).  Neither
operation raises an error. -/
theorem C2_unknown_uri (s : BackendState) (uri : String) (min_len : Nat)
    (h : docFind? s.documents uri = none) :
    did_close s uri min_len = s ∧
    ∀ changes, (did_change s uri changes min_len).documents = s.documents ∧
      (did_change s uri changes min_len).trie =
        changes.foldl (fun tr c => add_words tr c min_len) s.trie := by
  constructor
  · simp only [did_close, h]
    rw [docFind?_none_docErase h]
  · intro changes
    constructor
    · simp [did_change, h]
    · simp [did_change, h]

theorem C2_unknown_uri_witness :
    did_close BackendState.empty "d" 2 = BackendState.empty ∧
    ∀ changes, (did_change BackendState.empty "d" changes 2).documents =
        BackendState.empty.documents ∧
      (did_change BackendState.empty "d" changes 2).trie =
        changes.foldl (fun tr c => add_words tr c 2) BackendState.empty.trie :=
  C2_unknown_uri BackendState.empty "d" 2 (by decide)

/- ## Folded insert/remove counting -/

theorem Trie.wf_foldl_insert (ws : List (List Char)) :
    ∀ (t : Trie), t.root.Wf → (ws.foldl Trie.insert t).root.Wf := by
  induction ws with
  | nil => intro t h; exact h
  | cons v rest ih =>
    intro t h
    exact ih (t.insert v) (Trie.insert_root_wf v h)

theorem Trie.wf_foldl_remove (ws : List (List Char)) :
    ∀ (t : Trie), t.root.Wf → (ws.foldl Trie.remove t).root.Wf := by
  induction ws with
  | nil => intro t h; exact h
  | cons v rest ih =>
    intro t h
    exact ih (t.remove v) (Trie.remove_root_wf v h)

theorem Trie.countOf_foldl_insert (ws : List (List Char)) :
    ∀ (t : Trie) (w : List Char),
      (ws.foldl Trie.insert t).root.countOf w =
        t.root.countOf w + ws.count w := by
  induction ws with
  | nil => intro t w; simp
  | cons v rest ih =>
    intro t w
    rw [List.foldl_cons, ih, Trie.countOf_insert, List.count_cons]
    simp only [beq_iff_eq]
    by_cases h : w = v
    · subst h
      rw [if_pos rfl, if_pos rfl]
      push_cast
      ring
    · rw [if_neg h, if_neg (fun he => h he.symm)]
      push_cast
      ring

theorem Trie.countOf_foldl_remove (ws : List (List Char)) :
    ∀ (t : Trie), t.root.Wf →
      (∀ v, (ws.count v : Int) ≤ t.root.countOf v) →
      ∀ w, (ws.foldl Trie.remove t).root.countOf w =
        t.root.countOf w - ws.count w := by
  induction ws with
  | nil => intro t _ _ w; simp
  | cons v rest ih =>
    intro t hwf hle w
    have hv1 : (1 : Int) ≤ t.root.countOf v := by
      have := hle v
      rw [List.count_cons] at this
      simp only [beq_iff_eq, if_pos rfl] at this
      push_cast at this
      omega
    have hstep : ∀ u, (t.remove v).root.countOf u =
        t.root.countOf u - (if u = v then 1 else 0) := by
      intro u
      rw [Trie.countOf_remove t hwf v u]
      by_cases h : u = v
      · subst h
        rw [if_pos rfl, if_pos rfl]
        omega
      · rw [if_neg h, if_neg h]
        omega
    have hle1 : ∀ u, ((rest.count u : Int) ≤ (t.remove v).root.countOf u) := by
      intro u
      rw [hstep u]
      have := hle u
      rw [List.count_cons] at this
      simp only [beq_iff_eq] at this
      by_cases h : u = v
      · subst h
        rw [if_pos rfl] at this
        rw [if_pos rfl]
        push_cast at this ⊢
        omega
      · have h2 : ¬ (v = u) := fun he => h he.symm
        rw [if_neg h2] at this
        rw [if_neg h]
        push_cast at this ⊢
        omega
    rw [List.foldl_cons, ih (t.remove v) (Trie.remove_root_wf v hwf) hle1 w,
      hstep w, List.count_cons]
    simp only [beq_iff_eq]
    by_cases h : w = v
    · subst h
      rw [if_pos rfl, if_pos rfl]
      push_cast
      ring
    · rw [if_neg h, if_neg (fun he => h he.symm)]
      push_cast
      ring

/- ## storedCount lemmas -/

theorem storedCount_nil (m : Nat) (w : List Char) : storedCount [] m w = 0 := by
  simp [storedCount]

theorem storedCount_cons (p : String × List Char)
    (rest : List (String × List Char)) (m : Nat) (w : List Char) :
    storedCount (p :: rest) m w =
      ((doc_words p.2 m).count w : Int) + storedCount rest m w := by
  simp [storedCount]

theorem storedCount_append (d1 d2 : List (String × List Char)) (m : Nat)
    (w : List Char) :
    storedCount (d1 ++ d2) m w = storedCount d1 m w + storedCount d2 m w := by
  simp [storedCount]

theorem storedCount_nonneg (docs : List (String × List Char)) (m : Nat)
    (w : List Char) : 0 ≤ storedCount docs m w := by
  induction docs with
  | nil => simp [storedCount_nil]
  | cons p rest ih =>
    rw [storedCount_cons]
    positivity

theorem docFind?_mem {docs : List (String × List Char)} {uri : String}
    {content : List Char} (h : docFind? docs uri = some content) :
    (uri, content) ∈ docs := by
  induction docs with
  | nil => simp [docFind?] at h
  | cons p rest ih =>
    obtain ⟨u, c⟩ := p
    by_cases h0 : u = uri
    · simp [docFind?, h0] at h
      simp [h0, h]
    · simp only [docFind?, if_neg h0] at h
      simp [ih h]

theorem storedCount_ge_of_mem {docs : List (String × List Char)} {uri : String}
    {content : List Char} (m : Nat) (w : List Char)
    (hmem : (uri, content) ∈ docs) :
    ((doc_words content m).count w : Int) ≤ storedCount docs m w := by
  induction docs with
  | nil => simp at hmem
  | cons p rest ih =>
    rw [storedCount_cons]
    rcases List.mem_cons.1 hmem with h | h
    · have : p.2 = content := by rw [← h]
      rw [this]
      have := storedCount_nonneg rest m w
      omega
    · have h1 := ih h
      have h2 : (0 : Int) ≤ ((doc_words p.2 m).count w : Int) := by positivity
      omega

theorem storedCount_erase {docs : List (String × List Char)} {uri : String}
    {content : List Char} (m : Nat) (w : List Char)
    (h : docFind? docs uri = some content) :
    storedCount (docErase docs uri) m w =
      storedCount docs m w - (doc_words content m).count w := by
  induction docs with
  | nil => simp [docFind?] at h
  | cons p rest ih =>
    obtain ⟨u, c⟩ := p
    by_cases h0 : u = uri
    · simp [docFind?, h0] at h
      simp only [docErase, if_pos h0]
      rw [storedCount_cons]
      simp [h]
    · simp only [docFind?, if_neg h0] at h
      simp only [docErase, if_neg h0]
      rw [storedCount_cons, storedCount_cons, ih h]
      ring

theorem storedCount_set {docs : List (String × List Char)} {uri : String}
    {content : List Char} (text : List Char) (m : Nat) (w : List Char)
    (h : docFind? docs uri = some content) :
    storedCount (docSet docs uri text) m w =
      storedCount docs m w - (doc_words content m).count w
        + (doc_words text m).count w := by
  induction docs with
  | nil => simp [docFind?] at h
  | cons p rest ih =>
    obtain ⟨u, c⟩ := p
    by_cases h0 : u = uri
    · simp [docFind?, h0] at h
      simp only [docSet, if_pos h0]
      rw [storedCount_cons, storedCount_cons]
      simp [h]
      ring
    · simp only [docFind?, if_neg h0] at h
      simp only [docSet, if_neg h0]
      rw [storedCount_cons, storedCount_cons, ih h]
      ring

theorem docSet_absent {docs : List (String × List Char)} {uri : String}
    (text : List Char) (h : docFind? docs uri = none) :
    docSet docs uri text = docs ++ [(uri, text)] := by
  induction docs with
  | nil => simp [docSet]
  | cons p rest ih =>
    obtain ⟨u, c⟩ := p
    by_cases h0 : u = uri
    · simp [docFind?, h0] at h
    · simp only [docFind?, if_neg h0] at h
      simp [docSet, h0, ih h]

theorem docFind?_none_iff {docs : List (String × List Char)} {uri : String} :
    docFind? docs uri = none ↔ uri ∉ docs.map Prod.fst := by
  induction docs with
  | nil => simp [docFind?]
  | cons p rest ih =>
    obtain ⟨u, c⟩ := p
    by_cases h0 : u = uri
    · simp [docFind?, h0]
    · simp only [docFind?, if_neg h0, List.map_cons, List.mem_cons]
      rw [ih]
      constructor
      · intro hn hc
        rcases hc with hc | hc
        · exact h0 hc.symm
        · exact hn hc
      · intro hn hc
        exact hn (Or.inr hc)

theorem docErase_keys_sublist (docs : List (String × List Char)) (uri : String) :
    ((docErase docs uri).map Prod.fst).Sublist (docs.map Prod.fst) := by
  induction docs with
  | nil => simp [docErase]
  | cons p rest ih =>
    obtain ⟨u, c⟩ := p
    by_cases h0 : u = uri
    · simp only [docErase, if_pos h0, List.map_cons]
      exact List.sublist_cons_self _ _
    · simp only [docErase, if_neg h0, List.map_cons]
      exact List.Sublist.cons₂ _ ih

theorem docSet_keys_present {docs : List (String × List Char)} {uri : String}
    {content : List Char} (text : List Char)
    (h : docFind? docs uri = some content) :
    (docSet docs uri text).map Prod.fst = docs.map Prod.fst := by
  induction docs with
  | nil => simp [docFind?] at h
  | cons p rest ih =>
    obtain ⟨u, c⟩ := p
    by_cases h0 : u = uri
    · simp [docSet, h0]
    · simp only [docFind?, if_neg h0] at h
      simp [docSet, h0, ih h]

/- ## C1: what's indexed == what's stored -/

/-- C1 counterexample: open a document with content `"foo"`, then deliver
a change with the two fragments `"bar"`, `"baz"`.  Only the last fragment
is stored, but both fragments' tokens are inserted, so the trie counts
`"bar"` once while no stored document contains it — the invariant fails
after a multi-fragment change. -/
theorem C1_counterexample :
    ¬ IndexMatchesStore
      (did_change (did_open BackendState.empty "d" "foo".toList 2) "d"
        ["bar".toList, "baz".toList] 2) 2 := by
  intro h
  have hbar := h "bar".toList
  revert hbar
  decide

/-- C1 (amended): the invariant "for every word, the count in the trie
equals the total multiplicity of that word among the tokens of the stored
documents" is preserved by `did_open` of a not-yet-open document, by
`did_close`, and by `did_change` of an open document delivering exactly
one content fragment.  (The counterexample shows a change with two
fragments breaks it: every fragment is indexed but only the last is
stored; a change for an unknown uri similarly indexes without storing.) -/
theorem C1_index_matches_store (min_len : Nat) (s : BackendState) (uri : String)
    (h : BackendInv s min_len) :
    (∀ text, docFind? s.documents uri = none →
      BackendInv (did_open s uri text min_len) min_len) ∧
    BackendInv (did_close s uri min_len) min_len ∧
    (∀ change, (docFind? s.documents uri).isSome →
      BackendInv (did_change s uri [change] min_len) min_len) := by
  obtain ⟨hwf, hnd, him⟩ := h
  refine ⟨?_, ?_, ?_⟩
  · -- open of an absent document
    intro text hnone
    refine ⟨Trie.wf_foldl_insert (doc_words text min_len) s.trie hwf, ?_, ?_⟩
    · show ((docSet s.documents uri text).map Prod.fst).Nodup
      rw [docSet_absent text hnone, List.map_append]
      simp only [List.map_cons, List.map_nil]
      refine List.Nodup.append hnd (List.nodup_singleton uri) ?_
      intro x hx hx2
      simp at hx2
      subst hx2
      exact (docFind?_none_iff.1 hnone) hx
    · intro w
      show (add_words s.trie text min_len).root.countOf w =
        storedCount (docSet s.documents uri text) min_len w
      rw [docSet_absent text hnone, storedCount_append]
      have : (add_words s.trie text min_len).root.countOf w =
          s.trie.root.countOf w + (doc_words text min_len).count w :=
        Trie.countOf_foldl_insert (doc_words text min_len) s.trie w
      rw [this, him w, storedCount_cons]
      simp [storedCount_nil]
  · -- close
    cases hfind : docFind? s.documents uri with
    | none =>
      have hkeep : did_close s uri min_len = s := by
        simp only [did_close, hfind]
        rw [docFind?_none_docErase hfind]
      rw [hkeep]
      exact ⟨hwf, hnd, him⟩
    | some content =>
      have heq : did_close s uri min_len =
          ⟨docErase s.documents uri, remove_words s.trie content min_len⟩ := by
        simp [did_close, hfind]
      rw [heq]
      have hle : ∀ v, ((doc_words content min_len).count v : Int) ≤
          s.trie.root.countOf v := by
        intro v
        rw [him v]
        exact storedCount_ge_of_mem min_len v (docFind?_mem hfind)
      refine ⟨Trie.wf_foldl_remove (doc_words content min_len) s.trie hwf, ?_, ?_⟩
      · exact (docErase_keys_sublist s.documents uri).nodup hnd
      · intro w
        show (remove_words s.trie content min_len).root.countOf w =
          storedCount (docErase s.documents uri) min_len w
        have : (remove_words s.trie content min_len).root.countOf w =
            s.trie.root.countOf w - (doc_words content min_len).count w :=
          Trie.countOf_foldl_remove (doc_words content min_len) s.trie hwf hle w
        rw [this, him w, storedCount_erase min_len w hfind]
  · -- change of an open document, exactly one fragment
    intro change hsome
    cases hfind : docFind? s.documents uri with
    | none =>
      rw [hfind] at hsome
      simp at hsome
    | some content =>
      have heq : did_change s uri [change] min_len =
          ⟨docSet s.documents uri change,
            add_words (remove_words s.trie content min_len) change min_len⟩ := by
        simp [did_change, hfind]
      rw [heq]
      have hle : ∀ v, ((doc_words content min_len).count v : Int) ≤
          s.trie.root.countOf v := by
        intro v
        rw [him v]
        exact storedCount_ge_of_mem min_len v (docFind?_mem hfind)
      have hwf1 : (remove_words s.trie content min_len).root.Wf :=
        Trie.wf_foldl_remove (doc_words content min_len) s.trie hwf
      refine ⟨Trie.wf_foldl_insert (doc_words change min_len) _ hwf1, ?_, ?_⟩
      · show ((docSet s.documents uri change).map Prod.fst).Nodup
        rw [docSet_keys_present change hfind]
        exact hnd
      · intro w
        show (add_words (remove_words s.trie content min_len) change min_len).root.countOf w =
          storedCount (docSet s.documents uri change) min_len w
        have h1 : (remove_words s.trie content min_len).root.countOf w =
            s.trie.root.countOf w - (doc_words content min_len).count w :=
          Trie.countOf_foldl_remove (doc_words content min_len) s.trie hwf hle w
        have h2 : (add_words (remove_words s.trie content min_len) change min_len).root.countOf w =
            (remove_words s.trie content min_len).root.countOf w +
              (doc_words change min_len).count w :=
          Trie.countOf_foldl_insert (doc_words change min_len) _ w
        rw [h2, h1, him w, storedCount_set change min_len w hfind]

theorem empty_backend_inv (m : Nat) : BackendInv BackendState.empty m := by
  refine ⟨Trie.new_root_wf, by simp [BackendState.empty], ?_⟩
  intro w
  show Trie.new.root.countOf w = storedCount [] m w
  rw [Trie.new_countOf, storedCount_nil]

theorem C1_index_matches_store_witness :
    BackendInv (did_close BackendState.empty "d" 2) 2 :=
  (C1_index_matches_store 2 BackendState.empty "d" (empty_backend_inv 2)).2.1
